import Mathlib

/-!
Verification development for the Blocks main loop (blocks/main_loop.py).

The file shallowly embeds the code of blocks/main_loop.py:

* `Timer`, `Timer.enter`, `Timer.exit`, `Timer.report` embed the `Timer`
  class.  The defaultdict `total` is an association list from timing paths
  (lists of section names) to accumulated rational time; `current` is the
  current path stack; `order` is the insertion-ordered set of first-seen
  paths.  Elapsed times are modelled as rationals (the Python floats of
  `time.clock` are abstracted to exact arithmetic).  Division by zero,
  which raises `ZeroDivisionError` in Python, is modelled by `safeDiv`
  returning an error value.
* `timeIt` embeds the `TimeIt` context manager: `__enter__` pushes the
  section name, the body runs (possibly signalling an error in its result
  value), and `__exit__` always records the elapsed time once.
* `Span`/`Spans` model well-nested timed executions (each section has a
  start and stop clock reading and its children run inside it), and
  `runSpan`/`runSpans` replay such an execution against a `Timer` exactly
  as nested `TimeIt` blocks would.
* `MainLoop.run`, `_run_epoch`, `_run_iteration`, `_run_extensions` and
  `_check_finish_training` are embedded as `run`, `runEpoch`,
  `runIteration`, `runExts` and `checkFinishTraining` over an explicit
  state `LState`.  Exceptions are modelled by result codes (`IterRes`,
  `LoopRes`, `TryRes`, `RunRes`): `fin` is the internal `TrainingFinish`
  signal and `exn e` an ordinary propagating exception.  The training
  algorithm and the extensions are the pluggable collaborators of the
  spec; they are parameters (`Env`) that may fail or request a finish.
  Timing bookkeeping inside the loop only mutates the timer and is proved
  about separately (`timeIt`); it is omitted from `LState`.
* The signal handlers `_handle_epoch_interrupt`, `_handle_batch_interrupt`
  and `_restore_signal_handlers` are embedded over `SigState`, which
  records the current disposition of SIGINT/SIGTERM and the log flags.

The log object (`TrainingLog` from blocks/log.py, not part of the sources
here) is modelled from the spec: `status` is a record with the guaranteed
keys of spec section 3 initialized at construction (counters start at 0,
the epoch-boundary history `_epoch_ends` starts empty), and the current
row is superseded by a fresh row when `iterations_done` advances.
-/

/-- Lookup in an association list from timing paths to accumulated time,
with the defaultdict default of zero. -/
def getTotal : List (List String × ℚ) → List String → ℚ
  | [], _ => 0
  | (k, v) :: rest, q => if k = q then v else getTotal rest q

/-- `total[key] += v` on the association list: update in place when present,
append a fresh entry otherwise (as a Python defaultdict does). -/
def addTotal : List (List String × ℚ) → List String → ℚ → List (List String × ℚ)
  | [], k, v => [(k, v)]
  | (k', v') :: rest, k, v =>
      if k' = k then (k', v' + v) :: rest else (k', v') :: addTotal rest k v

/-- `OrderedSet.add`: append the key unless it is already recorded. -/
def addOrder (o : List (List String)) (k : List String) : List (List String) :=
  if k ∈ o then o else o ++ [k]

/-- The `Timer` class: accumulated time per path, the current path stack,
and the first-seen order of paths. -/
structure Timer where
  total : List (List String × ℚ)
  current : List String
  order : List (List String)
  deriving DecidableEq, Repr

/-- `Timer.__init__`. -/
def Timer.init : Timer := ⟨[], [], []⟩

/-- `Timer.enter`: push the name and record the resulting path as seen. -/
def Timer.enter (t : Timer) (name : String) : Timer :=
  let cur := t.current ++ [name]
  { t with current := cur, order := addOrder t.order cur }

/-- `Timer.exit`: accumulate the elapsed time at the current path, then pop. -/
def Timer.exit (t : Timer) (el : ℚ) : Timer :=
  { t with total := addTotal t.total t.current el,
           current := t.current.dropLast }

/-- The `TimeIt` context manager around a block of work.  `__enter__` calls
`timer.enter name` and records the start clock; the body then runs (its
result value `a` may encode a raised exception that is propagating); on
exit, whether or not the body raised, `__exit__` calls `timer.exit` with
the elapsed time exactly once. -/
def timeIt {α : Type} (name : String) (elapsed : ℚ)
    (body : Timer → α × Timer) (t : Timer) : α × Timer :=
  let t1 := t.enter name
  let (a, t2) := body t1
  (a, t2.exit elapsed)

/-- Errors that `Timer.report` can raise: the `ZeroDivisionError` of
`self.total[key] / total` with a zero grand total, or exhaustion of the
recursion fuel (never reached for the inputs considered). -/
inductive RepErr where
  | divByZero
  | fuelOut
  deriving DecidableEq, Repr

/-- One data line of the timing report: indentation level, section label,
accumulated time and fraction of the grand total. -/
structure RepLine where
  indent : ℕ
  label : String
  time : ℚ
  pct : ℚ
  deriving DecidableEq, Repr

/-- The label transformation of `report`: split on underscores, join with
spaces, capitalize the first character.  (On the empty string Python would
raise IndexError; section names are never empty in the main loop.) -/
def fmtLabel (s : String) : String :=
  let joined := " ".intercalate (s.splitOn "_")
  match joined.toList with
  | [] => ""
  | c :: cs => String.mk (Char.toUpper c :: cs)

/-- `key[-1]` of a timing path. -/
def lastName (k : List String) : String := (k.getLast?).getD ""

/-- `key[level]` of a timing path (always in bounds at its uses). -/
def pathAt (k : List String) (i : ℕ) : String := k.getD i ""

/-- Division as Python performs it: raising on a zero denominator. -/
def safeDiv (a b : ℚ) : Except RepErr ℚ :=
  if b = 0 then Except.error RepErr.divByZero else Except.ok (a / b)

/-- The recursive `print_report(keys, level)` worker of `Timer.report`.
`keys` is the full key list of the level, `remaining` the keys still to be
processed by its for-loop.  Keys longer than `level + 1` are skipped; each
processed key contributes its own line, the recursively printed lines of
its children (the keys of `keys` sharing its position-`level` component and
strictly longer than `level + 1`), and, when it has children, an implicit
Other line for the remainder.  Returns the lines together with the
subtotal of the processed keys. -/
def printReportAux (tm : List (List String × ℚ)) (grand : ℚ) :
    ℕ → List (List String) → List (List String) → ℕ →
    Except RepErr (List RepLine × ℚ)
  | 0, _, _, _ => Except.error RepErr.fuelOut
  | fuel + 1, keys, remaining, level =>
    match remaining with
    | [] => Except.ok ([], 0)
    | key :: rest =>
      if key.length > level + 1 then
        printReportAux tm grand fuel keys rest level
      else
        match safeDiv (getTotal tm key) grand with
        | Except.error e => Except.error e
        | Except.ok pct =>
          let line : RepLine := ⟨level, fmtLabel (lastName key), getTotal tm key, pct⟩
          let children := keys.filter
            (fun k => decide (pathAt k level = pathAt key level ∧ level + 1 < k.length))
          match printReportAux tm grand fuel children children (level + 1) with
          | Except.error e => Except.error e
          | Except.ok (childLines, childTotal) =>
            match
              (if children = [] then Except.ok []
               else
                 match safeDiv (getTotal tm key - childTotal) grand with
                 | Except.error e => Except.error e
                 | Except.ok opct =>
                   Except.ok [(⟨level + 1, "Other",
                               getTotal tm key - childTotal, opct⟩ : RepLine)]) with
            | Except.error e => Except.error e
            | Except.ok otherLines =>
              match printReportAux tm grand fuel keys rest level with
              | Except.error e => Except.error e
              | Except.ok (restLines, restTotal) =>
                Except.ok (line :: childLines ++ otherLines ++ restLines,
                           getTotal tm key + restTotal)

/-- A recursion bound sufficient for `printReportAux` on the given keys. -/
def reportFuel (keys : List (List String)) : ℕ :=
  (keys.map List.length).sum + keys.length + 1

/-- The grand total of `report`: the sum of the accumulations of all
written length-one paths (`sum(v for k, v in self.total.items() if
len(k) == 1)`). -/
def reportGrand (t : Timer) : ℚ :=
  ((t.total.filter fun kv => kv.1.length = 1).map fun kv => kv.2).sum

/-- `Timer.report`: the data lines of the report (the constant header is
not modelled), or the error Python would raise. -/
def Timer.report (t : Timer) : Except RepErr (List RepLine) :=
  match printReportAux t.total (reportGrand t) (reportFuel t.order) t.order t.order 0 with
  | Except.error e => Except.error e
  | Except.ok (lines, _) => Except.ok lines

mutual
/-- A well-nested timed execution of one `TimeIt` block: the section name,
the start and stop readings of the (monotone) clock, and the child blocks
executed inside it. -/
inductive Span : Type where
  | mk : String → ℚ → ℚ → Spans → Span

inductive Spans : Type where
  | nil : Spans
  | cons : Span → Spans → Spans
end

mutual
/-- Well-formedness of a timed execution: a block stops no earlier than it
starts, and the blocks of a sequence run one after another inside the
enclosing clock interval. -/
def Span.wf : Span → Prop
  | Span.mk _ a b cs => a ≤ b ∧ Spans.wfBetween a b cs

def Spans.wfBetween : ℚ → ℚ → Spans → Prop
  | lo, hi, Spans.nil => lo ≤ hi
  | lo, hi, Spans.cons (Span.mk n a b cs) rest =>
      lo ≤ a ∧ Span.wf (Span.mk n a b cs) ∧ Spans.wfBetween b hi rest
end

mutual
/-- The contribution of one executed block (at path prefix `p`) to the
timer accumulation of path `q`. -/
def Span.acc : Span → List String → List String → ℚ
  | Span.mk n a b cs, p, q =>
      (if q = p ++ [n] then b - a else 0) + Spans.acc cs (p ++ [n]) q

def Spans.acc : Spans → List String → List String → ℚ
  | Spans.nil, _, _ => 0
  | Spans.cons s rest, p, q => Span.acc s p q + Spans.acc rest p q
end

mutual
/-- Replaying a timed execution against a `Timer`, exactly as the nested
`TimeIt` context managers do: enter the section, run the children, exit
with the measured elapsed time. -/
def runSpan : Span → Timer → Timer
  | Span.mk n a b cs, t => (runSpans cs (t.enter n)).exit (b - a)

def runSpans : Spans → Timer → Timer
  | Spans.nil, t => t
  | Spans.cons s rest, t => runSpans rest (runSpan s t)
end

/-- Whether `pre` is an initial segment of `q`. -/
def startsWith : List String → List String → Bool
  | [], _ => true
  | _ :: _, [] => false
  | x :: pre, y :: q => x = y && startsWith pre q

/-- The accumulated time of a path in a timer. -/
def timerTotal (t : Timer) (q : List String) : ℚ := getTotal t.total q

/-- The callback phases of the main loop. -/
inductive Phase where
  | before_training
  | on_resumption
  | before_epoch
  | before_batch
  | after_batch
  | after_epoch
  | on_error
  | after_training
  deriving DecidableEq, Repr

/-- Python exceptions crossing the collaborator boundary: `ValueError`
raised by the loop itself, or an arbitrary failure of the algorithm or of
an extension. -/
inductive Exc where
  | valueError (msg : String)
  | userError (msg : String)
  deriving DecidableEq, Repr

/-- `traceback.format_exc` applied to a propagating error, abstracted to a
tagged rendering of the exception. -/
def formatExc : Exc → String
  | Exc.valueError m => "ValueError: " ++ m
  | Exc.userError m => m

/-- The observable outcome of dispatching one extension phase: the
extensions either all return (possibly making a `training_finish_requested`
record in the log), or one of them raises. -/
inductive ExtAct where
  | ok (finishReq : Bool)
  | raise (e : Exc)
  deriving DecidableEq, Repr

/-- The pluggable collaborators of the loop: the outcome of
`algorithm.initialize()`, the outcome of `algorithm.process_batch` on each
batch, and the outcome of each extension phase dispatch (indexed by the
phase and by how many phase dispatches have happened so far). -/
structure Env where
  initFail : Option Exc
  procBatch : ℕ → Option Exc
  ext : Phase → ℕ → ExtAct

/-- The status mapping of the log, with the guaranteed keys of the spec.
The two interrupt flags are `Option Bool` because `_check_finish_training`
reads them with `.get(key, False)`; `_epoch_ends` is the epoch-boundary
history. -/
structure Status where
  training_started : Bool
  epoch_started : Bool
  epoch_interrupt_received : Option Bool
  batch_interrupt_received : Option Bool
  iterations_done : ℕ
  epochs_done : ℕ
  epoch_ends : List ℕ
  received_first_batch : Bool
  deriving DecidableEq, Repr

/-- The current row of the log: the keys the loop and the interrupt
handlers read or write.  `none` models an absent key. -/
structure Row where
  training_finish_requested : Option Bool
  training_finished : Option Bool
  got_exception : Option String
  epoch_interrupt_received : Option Bool
  batch_interrupt_received : Option Bool
  deriving DecidableEq, Repr

/-- A fresh current row (no keys present yet); the log advances to a fresh
row when `iterations_done` is incremented. -/
def freshRow : Row := ⟨none, none, none, none, none⟩

/-- Observable events of a run, used to state in which order the loop
invoked its collaborators. -/
inductive Ev where
  | phase (p : Phase)
  | initAlgo
  | proc (b : ℕ)
  | incIter
  | incEpoch
  deriving DecidableEq, Repr

/-- The mutable state threaded through the loop: the log status and
current row, the remaining data stream (a list of epochs, each a list of
batches), the current epoch iterator, the count of extension phase
dispatches so far (to index `Env.ext`), and the event trace. -/
structure LState where
  status : Status
  row : Row
  stream : List (List ℕ)
  epochIter : List ℕ
  extCalls : ℕ
  trace : List Ev
  deriving DecidableEq, Repr

/-- The granularity argument of `_check_finish_training`. -/
inductive Level where
  | batch
  | epoch
  deriving DecidableEq, Repr

/-- `_check_finish_training`: true when the internal `TrainingFinish`
signal is raised. -/
def checkFinishTraining (row : Row) (st : Status) (level : Level) : Bool :=
  (row.training_finish_requested.getD false || st.batch_interrupt_received.getD false)
  || (decide (level = Level.epoch) && st.epoch_interrupt_received.getD false)

/-- `_run_extensions(method_name)`: dispatch the phase to the extensions.
The phase event is recorded; the aggregated extension outcome either
returns (possibly recording `training_finish_requested` in the current
row) or raises. -/
def runExts (env : Env) (p : Phase) (s : LState) : LState × Option Exc :=
  let sT := { s with trace := s.trace ++ [Ev.phase p], extCalls := s.extCalls + 1 }
  match env.ext p s.extCalls with
  | ExtAct.ok req =>
      (if req then
        { sT with row := { sT.row with training_finish_requested := some true } }
       else sT, none)
  | ExtAct.raise e => (sT, some e)

/-- The outcome of `_run_iteration`: returned `True`, returned `False`,
raised `TrainingFinish`, or raised an ordinary exception. -/
inductive IterRes where
  | cont
  | stop
  | fin
  | exn (e : Exc)
  deriving DecidableEq, Repr

/-- `_run_iteration`: fetch the next batch (an exhausted iterator before
any batch of the epoch is the `ValueError` configuration error, after at
least one batch the normal end of the epoch), run `before_batch`, process
the batch, increment `iterations_done` (the log advances to a fresh row),
run `after_batch`, and check the finish condition at batch granularity. -/
def runIteration (env : Env) (s : LState) : LState × IterRes :=
  match s.epochIter with
  | [] =>
      if s.status.received_first_batch then (s, IterRes.stop)
      else (s, IterRes.exn (Exc.valueError "epoch iterator yielded zero batches"))
  | b :: rest =>
      let s1 := { s with epochIter := rest,
                         status := { s.status with received_first_batch := true } }
      match runExts env Phase.before_batch s1 with
      | (s2, some e) => (s2, IterRes.exn e)
      | (s2, none) =>
        let s3 := { s2 with trace := s2.trace ++ [Ev.proc b] }
        match env.procBatch b with
        | some e => (s3, IterRes.exn e)
        | none =>
          let s4 := { s3 with
            status := { s3.status with iterations_done := s3.status.iterations_done + 1 },
            row := freshRow,
            trace := s3.trace ++ [Ev.incIter] }
          match runExts env Phase.after_batch s4 with
          | (s5, some e) => (s5, IterRes.exn e)
          | (s5, none) =>
            if checkFinishTraining s5.row s5.status Level.batch then (s5, IterRes.fin)
            else (s5, IterRes.cont)

/-- The outcome of the inner batch loop of `_run_epoch`. -/
inductive LoopRes where
  | stop
  | fin
  | exn (e : Exc)
  deriving DecidableEq, Repr

/-- The `while self._run_iteration(): pass` loop, with a recursion bound.
Each continuing iteration consumes one batch of the epoch iterator, so
fuel `epochIter.length + 1` always suffices; the fuel-exhaustion branch is
unreachable at the wrapper. -/
def runIterLoopAux (env : Env) : ℕ → LState → LState × LoopRes
  | 0, s => (s, LoopRes.stop)
  | n + 1, s =>
    match runIteration env s with
    | (s', IterRes.cont) => runIterLoopAux env n s'
    | (s', IterRes.stop) => (s', LoopRes.stop)
    | (s', IterRes.fin) => (s', LoopRes.fin)
    | (s', IterRes.exn e) => (s', LoopRes.exn e)

/-- The inner batch loop of `_run_epoch`. -/
def runIterLoop (env : Env) (s : LState) : LState × LoopRes :=
  runIterLoopAux env (s.epochIter.length + 1) s

/-- The outcome of `_run_epoch`: returned `True`, returned `False` (the
data stream is exhausted), raised `TrainingFinish`, or raised an ordinary
exception. -/
inductive EpochRes where
  | cont
  | stop
  | fin
  | exn (e : Exc)
  deriving DecidableEq, Repr

/-- The part of `_run_epoch` after the epoch iterator is in place: run the
batch loop; on normal exhaustion clear `epoch_started`, increment
`epochs_done`, append the cumulative iteration count to `_epoch_ends`, run
`after_epoch`, and check the finish condition at epoch granularity. -/
def epochBody (env : Env) (s : LState) : LState × EpochRes :=
  match runIterLoop env s with
  | (s1, LoopRes.stop) =>
      let s2 := { s1 with
        status := { s1.status with
          epoch_started := false,
          epochs_done := s1.status.epochs_done + 1,
          epoch_ends := s1.status.epoch_ends ++ [s1.status.iterations_done] },
        trace := s1.trace ++ [Ev.incEpoch] }
      match runExts env Phase.after_epoch s2 with
      | (s3, some e) => (s3, EpochRes.exn e)
      | (s3, none) =>
          if checkFinishTraining s3.row s3.status Level.epoch then (s3, EpochRes.fin)
          else (s3, EpochRes.cont)
  | (s1, LoopRes.fin) => (s1, EpochRes.fin)
  | (s1, LoopRes.exn e) => (s1, EpochRes.exn e)

/-- `_run_epoch`: when no epoch is in progress, reset
`received_first_batch`, fetch a fresh epoch iterator (an exhausted data
stream ends the loop normally), mark the epoch started and run
`before_epoch`; then run the batches. -/
def runEpoch (env : Env) (s : LState) : LState × EpochRes :=
  if s.status.epoch_started then epochBody env s
  else
    let s1 := { s with status := { s.status with received_first_batch := false } }
    match s1.stream with
    | [] => (s1, EpochRes.stop)
    | ep :: rest =>
      let s2 := { s1 with stream := rest, epochIter := ep,
                          status := { s1.status with epoch_started := true } }
      match runExts env Phase.before_epoch s2 with
      | (s3, some e) => (s3, EpochRes.exn e)
      | (s3, none) => epochBody env s3

/-- The `while self._run_epoch(): pass` loop, with a recursion bound.  At
most one leading call can find an epoch already started (consuming no
stream element); every other continuing call consumes one epoch of the
stream, so fuel `stream.length + 2` always suffices. -/
def runLoopAux (env : Env) : ℕ → LState → LState × LoopRes
  | 0, s => (s, LoopRes.stop)
  | n + 1, s =>
    match runEpoch env s with
    | (s', EpochRes.cont) => runLoopAux env n s'
    | (s', EpochRes.stop) => (s', LoopRes.stop)
    | (s', EpochRes.fin) => (s', LoopRes.fin)
    | (s', EpochRes.exn e) => (s', LoopRes.exn e)

/-- The epoch loop of `run()`. -/
def runLoop (env : Env) (s : LState) : LState × LoopRes :=
  runLoopAux env (s.stream.length + 2) s

/-- The outcome of the `try` block of `run()`. -/
inductive TryRes where
  | ok
  | fin
  | exn (e : Exc)
  deriving DecidableEq, Repr

/-- The first-start step of the `try` block of `run()`: when training has
not started yet, run `before_training`, invoke the one-time
`algorithm.initialize()` and mark `training_started`. -/
def startStep (env : Env) (s : LState) : LState × Option Exc :=
  if s.status.training_started then (s, none)
  else
    match runExts env Phase.before_training s with
    | (s1, some e) => (s1, some e)
    | (s1, none) =>
      let s2 := { s1 with trace := s1.trace ++ [Ev.initAlgo] }
      match env.initFail with
      | some e => (s2, some e)
      | none =>
        ({ s2 with status := { s2.status with training_started := true } }, none)

/-- The resumption step of the `try` block of `run()`: when iterations were
already done (a restored log), run `on_resumption` and clear both
interrupt flags. -/
def resumeStep (env : Env) (s : LState) : LState × Option Exc :=
  if s.status.iterations_done > 0 then
    match runExts env Phase.on_resumption s with
    | (s1, some e) => (s1, some e)
    | (s1, none) =>
      ({ s1 with status := { s1.status with
          epoch_interrupt_received := some false,
          batch_interrupt_received := some false } }, none)
  else (s, none)

/-- The `try` block of `run()`: the first-start step, the resumption step,
then the epoch loop. -/
def tryBody (env : Env) (s : LState) : LState × TryRes :=
  match startStep env s with
  | (s1, some e) => (s1, TryRes.exn e)
  | (s1, none) =>
    match resumeStep env s1 with
    | (s2, some e) => (s2, TryRes.exn e)
    | (s2, none) =>
      match runLoop env s2 with
      | (s3, LoopRes.stop) => (s3, TryRes.ok)
      | (s3, LoopRes.fin) => (s3, TryRes.fin)
      | (s3, LoopRes.exn e) => (s3, TryRes.exn e)

/-- The outcome of `run()` for the caller. -/
inductive RunRes where
  | ok
  | exn (e : Exc)
  deriving DecidableEq, Repr

/-- The `finally` step of `run()`: when the current row shows
`training_finished`, run `after_training` (an exception raised there
supersedes the in-flight outcome, as in Python); the timing report and the
signal-handler restoration do not touch the log state. -/
def finallyStep (env : Env) (s : LState) (r : RunRes) : LState × RunRes :=
  if s.row.training_finished.getD false then
    match runExts env Phase.after_training s with
    | (s1, some e) => (s1, RunRes.exn e)
    | (s1, none) => (s1, r)
  else (s, r)

/-- `run()`: the try block, the `TrainingFinish` handler (mark
`training_finished` in the current row), the ordinary-exception handler
(record the formatted error under `got_exception`, run `on_error`
best-effort, re-raise the original error), and the `finally` step. -/
def run (env : Env) (s : LState) : LState × RunRes :=
  let p := tryBody env s
  match p.2 with
  | TryRes.fin =>
      finallyStep env
        { p.1 with row := { p.1.row with training_finished := some true } } RunRes.ok
  | TryRes.ok => finallyStep env p.1 RunRes.ok
  | TryRes.exn e =>
      let s2 := { p.1 with row := { p.1.row with got_exception := some (formatExc e) } }
      finallyStep env (runExts env Phase.on_error s2).1 (RunRes.exn e)

/-- Modelled from the spec: the status as `MainLoop.__init__` together
with the fresh `TrainingLog` leaves it (the log object is not among the
sources here): the four boolean flags are set by `__init__`, the counters
start at zero and the epoch-boundary history empty. -/
def initStatus : Status :=
  { training_started := false
    epoch_started := false
    epoch_interrupt_received := some false
    batch_interrupt_received := some false
    iterations_done := 0
    epochs_done := 0
    epoch_ends := []
    received_first_batch := false }

/-- A freshly constructed main loop over the given data stream. -/
def initState (data : List (List ℕ)) : LState :=
  { status := initStatus, row := freshRow, stream := data,
    epochIter := [], extCalls := 0, trace := [] }

/-- The events of one successfully processed batch. -/
def batchEvs (b : ℕ) : List Ev :=
  [Ev.phase Phase.before_batch, Ev.proc b, Ev.incIter, Ev.phase Phase.after_batch]

/-- The events of one completed epoch. -/
def epochEvs (ep : List ℕ) : List Ev :=
  [Ev.phase Phase.before_epoch] ++ ep.flatMap batchEvs
    ++ [Ev.incEpoch, Ev.phase Phase.after_epoch]

/-- The canonical event trace of an uninterrupted, failure-free run. -/
def canonTrace (data : List (List ℕ)) : List Ev :=
  [Ev.phase Phase.before_training, Ev.initAlgo] ++ data.flatMap epochEvs

/-- The total number of batches of a data stream. -/
def totalBatches (data : List (List ℕ)) : ℕ := (data.map List.length).sum

/-- The disposition of a process signal: the pre-install OS handler, or
one of the two handlers of the main loop. -/
inductive Handler where
  | original
  | epochHandler
  | batchHandler
  deriving DecidableEq, Repr

/-- The two interruption signals handled by the loop. -/
inductive Sig where
  | sigint
  | sigterm
  deriving DecidableEq, Repr

/-- The state the interrupt machinery acts on: the current disposition of
each signal, the log status and current row, and whether a signal has
fallen through to the original OS disposition. -/
structure SigState where
  sigintH : Handler
  sigtermH : Handler
  status : Status
  row : Row
  defaulted : Bool
  deriving DecidableEq, Repr

/-- The installation performed at the top of `run()`: SIGINT goes to
`_handle_epoch_interrupt`, SIGTERM to `_handle_batch_interrupt` (the
original dispositions are saved for `_restore_signal_handlers`). -/
def installHandlers (s : SigState) : SigState :=
  { s with sigintH := Handler.epochHandler, sigtermH := Handler.batchHandler }

/-- `_handle_epoch_interrupt`: re-arm SIGINT to the batch handler and
record the epoch interrupt in the current row and in the status. -/
def handleEpochInterrupt (s : SigState) : SigState :=
  { s with sigintH := Handler.batchHandler,
           row := { s.row with epoch_interrupt_received := some true },
           status := { s.status with epoch_interrupt_received := some true } }

/-- `_handle_batch_interrupt`: first restore the original dispositions of
both signals, then record the batch interrupt in the current row and in
the status. -/
def handleBatchInterrupt (s : SigState) : SigState :=
  { s with sigintH := Handler.original, sigtermH := Handler.original,
           row := { s.row with batch_interrupt_received := some true },
           status := { s.status with batch_interrupt_received := some true } }

/-- Delivery of a signal: dispatch to its currently installed handler; a
signal whose disposition is the original one falls through to default OS
behaviour. -/
def deliver (sig : Sig) (s : SigState) : SigState :=
  match (match sig with
         | Sig.sigint => s.sigintH
         | Sig.sigterm => s.sigtermH) with
  | Handler.epochHandler => handleEpochInterrupt s
  | Handler.batchHandler => handleBatchInterrupt s
  | Handler.original => { s with defaulted := true }

/-- Collaborators that never fail and never request a finish. -/
def cleanEnv : Env := ⟨none, fun _ => none, fun _ _ => ExtAct.ok false⟩

/-- Collaborators whose extensions request a training finish at every
`after_batch` dispatch. -/
def finishEnv : Env :=
  ⟨none, fun _ => none,
   fun p _ => if p = Phase.after_batch then ExtAct.ok true else ExtAct.ok false⟩

/-- Collaborators whose algorithm fails on batch `0`. -/
def failEnv : Env :=
  ⟨none, fun b => if b = 0 then some (Exc.userError "boom") else none,
   fun _ _ => ExtAct.ok false⟩

/-- A state whose epoch iterator is exhausted after a batch was received. -/
def rcvState : LState :=
  { initState [] with status := { initStatus with received_first_batch := true } }

/-- A timer that recorded a single section of zero elapsed time. -/
def zeroTimer : Timer := (Timer.init.enter "a").exit 0

/-- An example well-nested execution: a section running from clock 0 to
10 with one child section from 1 to 3. -/
def exSpans : Spans :=
  Spans.cons (Span.mk "a" 0 10 (Spans.cons (Span.mk "b" 1 3 Spans.nil) Spans.nil))
    Spans.nil

/-- The loop state of a fresh run right after the first-start step: the
`before_training` phase was dispatched, the algorithm initialized, and
`training_started` set. -/
def startedState (data : List (List ℕ)) : LState :=
  { status := { initStatus with training_started := true }
    row := freshRow
    stream := data
    epochIter := []
    extCalls := 1
    trace := [Ev.phase Phase.before_training, Ev.initAlgo] }

/-- C5: for every use of the scoped-timing helper `timeIt` around a body
whose own timing is well nested (it restores the current-path stack),
`timer.enter` runs once on entry and `timer.exit` runs exactly once on
exit with the elapsed time — the result timer is literally one `exit`
applied to the timer the body produced, for every body outcome including
a propagating failure encoded in the result value — and the current-path
stack is restored to its pre-entry value. -/
theorem C5_timeIt_scoped {α : Type} (name : String) (elapsed : ℚ)
    (body : Timer → α × Timer) (t : Timer)
    (h : ((body (t.enter name)).2).current = (t.enter name).current) :
    (timeIt name elapsed body t).2 = ((body (t.enter name)).2).exit elapsed
    ∧ ((timeIt name elapsed body t).2).current = t.current := by
  rcases hb : body (t.enter name) with ⟨a, t2⟩
  constructor
  · simp [timeIt, hb]
  · simp [timeIt, hb, Timer.exit]
    have hc : t2.current = (t.enter name).current := by
      simpa [hb] using h
    simp [hc, Timer.enter]

/-- C5 witness: the scoped-timing guarantee instantiated on a concrete
body that signals a propagating failure in its result value. -/
theorem C5_timeIt_scoped_witness :
    (((fun u => ((some (Exc.userError "fail") : Option Exc), u))
        (Timer.init.enter "work")).2).current = (Timer.init.enter "work").current
    ∧ ((timeIt "work" 3 (fun u => ((some (Exc.userError "fail") : Option Exc), u))
          Timer.init).2 =
        (((fun u => ((some (Exc.userError "fail") : Option Exc), u))
            (Timer.init.enter "work")).2).exit 3
       ∧ ((timeIt "work" 3 (fun u => ((some (Exc.userError "fail") : Option Exc), u))
            Timer.init).2).current = Timer.init.current) :=
  ⟨rfl, C5_timeIt_scoped "work" 3
    (fun u => ((some (Exc.userError "fail") : Option Exc), u)) Timer.init rfl⟩

/-- C2: when the epoch iterator is exhausted before any batch was received
in the current epoch, `_run_iteration` raises the configuration error
(a `ValueError` reading "epoch iterator yielded zero batches" — the
`EmptyEpochError` of the spec) instead of silently treating the epoch as
empty; when at least one batch was already received, the same exhaustion
ends the epoch normally without error. -/
theorem C2_empty_epoch_error (env : Env) (s : LState) (h : s.epochIter = []) :
    (s.status.received_first_batch = false →
      runIteration env s =
        (s, IterRes.exn (Exc.valueError "epoch iterator yielded zero batches")))
    ∧ (s.status.received_first_batch = true →
      runIteration env s = (s, IterRes.stop)) := by
  constructor <;> intro hr <;> simp [runIteration, h, hr]

/-- C2 witness: a fresh epoch whose iterator yields zero batches fails
with the configuration error, while exhaustion after a received batch
stops the epoch normally. -/
theorem C2_empty_epoch_error_witness :
    ((initState []).epochIter = [] ∧ rcvState.epochIter = [])
    ∧ (runIteration cleanEnv (initState []) =
        (initState [], IterRes.exn (Exc.valueError "epoch iterator yielded zero batches"))
       ∧ runIteration cleanEnv rcvState = (rcvState, IterRes.stop)) :=
  ⟨⟨rfl, rfl⟩,
   (C2_empty_epoch_error cleanEnv (initState []) rfl).1 rfl,
   (C2_empty_epoch_error cleanEnv rcvState rfl).2 rfl⟩

/-- C3: `_check_finish_training` signals the internal finish exactly when
the current row has `training_finish_requested` true, or the status has
`batch_interrupt_received` true (both checked at batch and at epoch
granularity), or — at epoch granularity only — the status has
`epoch_interrupt_received` true; a key that is absent counts as false. -/
theorem C3_finish_check (row : Row) (st : Status) (level : Level) :
    checkFinishTraining row st level = true ↔
      (row.training_finish_requested.getD false = true
       ∨ st.batch_interrupt_received.getD false = true
       ∨ (level = Level.epoch ∧ st.epoch_interrupt_received.getD false = true)) := by
  simp [checkFinishTraining]
  tauto

/-- C6: from the dispositions installed by `run()`, the first graceful
signal (SIGINT) records the epoch interrupt in status and current row and
re-arms SIGINT to the batch handler, so that its second occurrence — like
a SIGTERM at any point — acts as the stronger signal: it records the
batch interrupt in status and current row and immediately restores both
original signal dispositions. -/
theorem C6_interrupt_escalation (h1 h2 : Handler) (st : Status) (row : Row) (d : Bool) :
    ((deliver Sig.sigint (installHandlers ⟨h1, h2, st, row, d⟩)).status.epoch_interrupt_received
        = some true
     ∧ (deliver Sig.sigint (installHandlers ⟨h1, h2, st, row, d⟩)).row.epoch_interrupt_received
        = some true
     ∧ (deliver Sig.sigint (installHandlers ⟨h1, h2, st, row, d⟩)).sigintH
        = Handler.batchHandler
     ∧ (deliver Sig.sigint (installHandlers ⟨h1, h2, st, row, d⟩)).sigtermH
        = Handler.batchHandler)
    ∧ ((deliver Sig.sigint (deliver Sig.sigint (installHandlers ⟨h1, h2, st, row, d⟩))).status.batch_interrupt_received
        = some true
       ∧ (deliver Sig.sigint (deliver Sig.sigint (installHandlers ⟨h1, h2, st, row, d⟩))).row.batch_interrupt_received
        = some true
       ∧ (deliver Sig.sigint (deliver Sig.sigint (installHandlers ⟨h1, h2, st, row, d⟩))).sigintH
        = Handler.original
       ∧ (deliver Sig.sigint (deliver Sig.sigint (installHandlers ⟨h1, h2, st, row, d⟩))).sigtermH
        = Handler.original)
    ∧ ((deliver Sig.sigterm (installHandlers ⟨h1, h2, st, row, d⟩)).status.batch_interrupt_received
        = some true
       ∧ (deliver Sig.sigterm (installHandlers ⟨h1, h2, st, row, d⟩)).row.batch_interrupt_received
        = some true
       ∧ (deliver Sig.sigterm (installHandlers ⟨h1, h2, st, row, d⟩)).sigintH
        = Handler.original
       ∧ (deliver Sig.sigterm (installHandlers ⟨h1, h2, st, row, d⟩)).sigtermH
        = Handler.original)
    ∧ ((deliver Sig.sigterm (deliver Sig.sigint (installHandlers ⟨h1, h2, st, row, d⟩))).status.batch_interrupt_received
        = some true
       ∧ (deliver Sig.sigterm (deliver Sig.sigint (installHandlers ⟨h1, h2, st, row, d⟩))).sigtermH
        = Handler.original) := by
  simp [deliver, installHandlers, handleEpochInterrupt, handleBatchInterrupt]

/-- C8 counterexample: the claim fails as stated.  A timer that recorded a
section whose accumulated time is zero (one `enter`/`exit` pair with zero
elapsed time) has a zero grand total, and `report()` then raises
`ZeroDivisionError` at the percentage computation `self.total[key] /
total` instead of producing a zero report. -/
theorem C8_zero_report_counterexample :
    zeroTimer.total = [(["a"], 0)]
    ∧ zeroTimer.report = Except.error RepErr.divByZero := by
  constructor
  · rfl
  · simp [zeroTimer, Timer.init, Timer.enter, Timer.exit, addOrder, addTotal,
          Timer.report, reportGrand, reportFuel, printReportAux, getTotal, safeDiv]

/-- C8 amended: calling `report()` after zero elapsed work in the sense
that no section was ever recorded (the timer is untouched, so no keys were
seen) produces a well-formed empty report and does not raise an error;
when sections were recorded but all accumulators are zero, the report
instead fails with a division-by-zero error (see the counterexample). -/
theorem C8_empty_report_ok (t : Timer) (h : t.order = []) :
    t.report = Except.ok [] := by
  simp [Timer.report, h, reportFuel, printReportAux]

/-- C8 witness: the freshly initialized timer reports an empty table. -/
theorem C8_empty_report_ok_witness :
    Timer.init.order = [] ∧ Timer.init.report = Except.ok [] :=
  ⟨rfl, C8_empty_report_ok Timer.init rfl⟩

@[simp] theorem runExts_status (env : Env) (p : Phase) (s : LState) :
    (runExts env p s).1.status = s.status := by
  rcases h : env.ext p s.extCalls with req | e <;> simp [runExts, h]
  cases req <;> simp

@[simp] theorem runExts_stream (env : Env) (p : Phase) (s : LState) :
    (runExts env p s).1.stream = s.stream := by
  rcases h : env.ext p s.extCalls with req | e <;> simp [runExts, h]
  cases req <;> simp

@[simp] theorem runExts_epochIter (env : Env) (p : Phase) (s : LState) :
    (runExts env p s).1.epochIter = s.epochIter := by
  rcases h : env.ext p s.extCalls with req | e <;> simp [runExts, h]
  cases req <;> simp

@[simp] theorem runExts_trace (env : Env) (p : Phase) (s : LState) :
    (runExts env p s).1.trace = s.trace ++ [Ev.phase p] := by
  rcases h : env.ext p s.extCalls with req | e <;> simp [runExts, h]
  cases req <;> simp

@[simp] theorem runExts_row_finished (env : Env) (p : Phase) (s : LState) :
    (runExts env p s).1.row.training_finished = s.row.training_finished := by
  rcases h : env.ext p s.extCalls with req | e <;> simp [runExts, h]
  cases req <;> simp

@[simp] theorem runExts_row_got (env : Env) (p : Phase) (s : LState) :
    (runExts env p s).1.row.got_exception = s.row.got_exception := by
  rcases h : env.ext p s.extCalls with req | e <;> simp [runExts, h]
  cases req <;> simp

/-- Preservation facts carried through every step of the try block: no
`after_training` phase event is added to the trace, and a current row
whose `training_finished` key is unset (or false) stays that way. -/
def LPres (s s1 : LState) : Prop :=
  (Ev.phase Phase.after_training ∈ s1.trace → Ev.phase Phase.after_training ∈ s.trace)
  ∧ (s.row.training_finished.getD false = false →
     s1.row.training_finished.getD false = false)

theorem LPres.rfl (s : LState) : LPres s s := ⟨fun h => h, fun h => h⟩

theorem LPres.trans {s s1 s2 : LState} (h1 : LPres s s1) (h2 : LPres s1 s2) :
    LPres s s2 := ⟨fun h => h1.1 (h2.1 h), fun h => h2.2 (h1.2 h)⟩

theorem lpres_runExts (env : Env) (p : Phase) (s : LState)
    (hp : p ≠ Phase.after_training) : LPres s (runExts env p s).1 := by
  constructor
  · intro h
    rw [runExts_trace] at h
    rcases List.mem_append.mp h with h | h
    · exact h
    · simp at h
      exact absurd h.symm hp
  · intro h
    rw [runExts_row_finished]
    exact h

theorem lpres_of (s s1 : LState) (dl : List Ev)
    (ht : s1.trace = s.trace ++ dl)
    (hd : Ev.phase Phase.after_training ∉ dl)
    (hr : s1.row.training_finished.getD false = false
          ∨ s1.row.training_finished = s.row.training_finished) :
    LPres s s1 := by
  constructor
  · intro h
    rw [ht] at h
    rcases List.mem_append.mp h with h | h
    · exact h
    · exact absurd h hd
  · intro h
    rcases hr with hr | hr
    · exact hr
    · rw [hr]
      exact h

theorem lpres_runIteration (env : Env) (s : LState) :
    LPres s (runIteration env s).1 := by
  unfold runIteration
  dsimp only
  split
  · split <;> exact LPres.rfl s
  next b rest hei =>
    split
    next s2 e2 heq =>
      have htr := congrArg (fun x => x.1.trace) heq
      simp at htr
      have hrw := congrArg (fun x => x.1.row.training_finished) heq
      simp at hrw
      exact lpres_of s s2 [Ev.phase Phase.before_batch] htr.symm (by simp)
        (Or.inr hrw.symm)
    next s2 heq =>
      have htr := congrArg (fun x => x.1.trace) heq
      simp at htr
      have hrw := congrArg (fun x => x.1.row.training_finished) heq
      simp at hrw
      split
      next e heqp =>
        refine lpres_of s _ [Ev.phase Phase.before_batch, Ev.proc b] ?_ (by simp)
          (Or.inr ?_)
        · dsimp only
          rw [← htr]
          simp
        · exact hrw.symm
      next heqp =>
        split
        next s5 e heq2 =>
          have htr2 := congrArg (fun x => x.1.trace) heq2
          simp at htr2
          have hrw2 := congrArg (fun x => x.1.row.training_finished) heq2
          simp [freshRow] at hrw2
          refine lpres_of s s5
            [Ev.phase Phase.before_batch, Ev.proc b, Ev.incIter,
             Ev.phase Phase.after_batch] ?_ (by simp) (Or.inl ?_)
          · rw [← htr2, ← htr]
            simp
          · simp [← hrw2]
        next s5 heq2 =>
          have htr2 := congrArg (fun x => x.1.trace) heq2
          simp at htr2
          have hrw2 := congrArg (fun x => x.1.row.training_finished) heq2
          simp [freshRow] at hrw2
          have hp : LPres s s5 := by
            refine lpres_of s s5
              [Ev.phase Phase.before_batch, Ev.proc b, Ev.incIter,
               Ev.phase Phase.after_batch] ?_ (by simp) (Or.inl ?_)
            · rw [← htr2, ← htr]
              simp
            · simp [← hrw2]
          split <;> exact hp

theorem lpres_runIterLoopAux (env : Env) (n : ℕ) (s : LState) :
    LPres s (runIterLoopAux env n s).1 := by
  induction n generalizing s with
  | zero => exact LPres.rfl s
  | succ n ih =>
    unfold runIterLoopAux
    split
    next s1 heq =>
      have h1 := lpres_runIteration env s
      rw [heq] at h1
      exact LPres.trans h1 (ih s1)
    all_goals
      next s1 heq =>
        have h1 := lpres_runIteration env s
        rw [heq] at h1
        exact h1

theorem lpres_runIterLoop (env : Env) (s : LState) :
    LPres s (runIterLoop env s).1 :=
  lpres_runIterLoopAux env _ s

theorem lpres_epochBody (env : Env) (s : LState) :
    LPres s (epochBody env s).1 := by
  unfold epochBody
  split
  next s1 heq =>
    have h1 : LPres s s1 := by
      have h := lpres_runIterLoop env s
      rw [heq] at h
      exact h
    dsimp only
    split
    next s3 e heq2 =>
      have htr := congrArg (fun x => x.1.trace) heq2
      simp at htr
      have hrw := congrArg (fun x => x.1.row.training_finished) heq2
      simp at hrw
      refine LPres.trans h1 (lpres_of s1 s3 [Ev.incEpoch, Ev.phase Phase.after_epoch]
        ?_ (by simp) (Or.inr hrw.symm))
      simp [← htr]
    next s3 heq2 =>
      have htr := congrArg (fun x => x.1.trace) heq2
      simp at htr
      have hrw := congrArg (fun x => x.1.row.training_finished) heq2
      simp at hrw
      have hp : LPres s s3 := by
        refine LPres.trans h1 (lpres_of s1 s3 [Ev.incEpoch, Ev.phase Phase.after_epoch]
          ?_ (by simp) (Or.inr hrw.symm))
        simp [← htr]
      split <;> exact hp
  next s1 heq =>
    have h := lpres_runIterLoop env s
    rw [heq] at h
    exact h
  next s1 e heq =>
    have h := lpres_runIterLoop env s
    rw [heq] at h
    exact h

theorem lpres_runEpoch (env : Env) (s : LState) :
    LPres s (runEpoch env s).1 := by
  unfold runEpoch
  split
  · exact lpres_epochBody env s
  · dsimp only
    split
    · exact LPres.rfl s
    next ep rest heq =>
      split
      next s3 e heq2 =>
        have htr := congrArg (fun x => x.1.trace) heq2
        simp at htr
        have hrw := congrArg (fun x => x.1.row.training_finished) heq2
        simp at hrw
        exact lpres_of s s3 [Ev.phase Phase.before_epoch] htr.symm (by simp)
          (Or.inr hrw.symm)
      next s3 heq2 =>
        have htr := congrArg (fun x => x.1.trace) heq2
        simp at htr
        have hrw := congrArg (fun x => x.1.row.training_finished) heq2
        simp at hrw
        have h3 : LPres s s3 :=
          lpres_of s s3 [Ev.phase Phase.before_epoch] htr.symm (by simp)
            (Or.inr hrw.symm)
        exact LPres.trans h3 (lpres_epochBody env s3)

theorem lpres_runLoopAux (env : Env) (n : ℕ) (s : LState) :
    LPres s (runLoopAux env n s).1 := by
  induction n generalizing s with
  | zero => exact LPres.rfl s
  | succ n ih =>
    unfold runLoopAux
    split
    next s1 heq =>
      have h1 := lpres_runEpoch env s
      rw [heq] at h1
      exact LPres.trans h1 (ih s1)
    all_goals
      next s1 heq =>
        have h1 := lpres_runEpoch env s
        rw [heq] at h1
        exact h1

theorem lpres_runLoop (env : Env) (s : LState) :
    LPres s (runLoop env s).1 :=
  lpres_runLoopAux env _ s

theorem lpres_startStep (env : Env) (s : LState) :
    LPres s (startStep env s).1 := by
  unfold startStep
  split
  · exact LPres.rfl s
  · dsimp only
    split
    next s1 e heq =>
      have h := lpres_runExts env Phase.before_training s (by decide)
      rw [heq] at h
      exact h
    next s1 heq =>
      have h := lpres_runExts env Phase.before_training s (by decide)
      rw [heq] at h
      have h2 : LPres s1 { s1 with trace := s1.trace ++ [Ev.initAlgo] } := by
        refine lpres_of s1 _ [Ev.initAlgo] rfl (by simp) (Or.inr rfl)
      split
      · exact LPres.trans h h2
      · refine LPres.trans (LPres.trans h h2) ?_
        exact ⟨fun hm => hm, fun hm => hm⟩

theorem lpres_resumeStep (env : Env) (s : LState) :
    LPres s (resumeStep env s).1 := by
  unfold resumeStep
  split
  · split
    next s1 e heq =>
      have h := lpres_runExts env Phase.on_resumption s (by decide)
      rw [heq] at h
      exact h
    next s1 heq =>
      have h := lpres_runExts env Phase.on_resumption s (by decide)
      rw [heq] at h
      exact LPres.trans h ⟨fun hm => hm, fun hm => hm⟩
  · exact LPres.rfl s

theorem lpres_tryBody (env : Env) (s : LState) :
    LPres s (tryBody env s).1 := by
  unfold tryBody
  split
  next s1 e heq =>
    have h := lpres_startStep env s
    rw [heq] at h
    exact h
  next s1 heq =>
    have h1 : LPres s s1 := by
      have h := lpres_startStep env s
      rw [heq] at h
      exact h
    split
    next s2 e heq2 =>
      have h := lpres_resumeStep env s1
      rw [heq2] at h
      exact LPres.trans h1 h
    next s2 heq2 =>
      have h2 : LPres s s2 := by
        have h := lpres_resumeStep env s1
        rw [heq2] at h
        exact LPres.trans h1 h
      split
      next s3 heq3 =>
        have h := lpres_runLoop env s2
        rw [heq3] at h
        exact LPres.trans h2 h
      next s3 heq3 =>
        have h := lpres_runLoop env s2
        rw [heq3] at h
        exact LPres.trans h2 h
      next s3 e heq3 =>
        have h := lpres_runLoop env s2
        rw [heq3] at h
        exact LPres.trans h2 h

theorem finallyStep_skip (env : Env) (s : LState) (r : RunRes)
    (h : s.row.training_finished.getD false = false) :
    finallyStep env s r = (s, r) := by
  simp [finallyStep, h]

/-- C1: whenever the try block of `run()` raises an ordinary error `e`
(an algorithm, extension or configuration failure during training, not
the internal finish signal), `run()` records the formatted error in the
current row under `got_exception`, dispatches the `on_error` phase
best-effort (a failure inside it does not replace the original error),
re-raises the original error `e` to the caller, and never invokes the
`after_training` phase. -/
theorem C1_error_path (env : Env) (data : List (List ℕ)) (e : Exc)
    (h : (tryBody env (initState data)).2 = TryRes.exn e) :
    (run env (initState data)).2 = RunRes.exn e
    ∧ (run env (initState data)).1.row.got_exception = some (formatExc e)
    ∧ Ev.phase Phase.on_error ∈ (run env (initState data)).1.trace
    ∧ Ev.phase Phase.after_training ∉ (run env (initState data)).1.trace := by
  have hpres := lpres_tryBody env (initState data)
  rcases hp : tryBody env (initState data) with ⟨s1, r⟩
  rw [hp] at hpres h
  dsimp at h hpres
  subst h
  have hrun : run env (initState data) =
      finallyStep env
        (runExts env Phase.on_error
          { s1 with row := { s1.row with got_exception := some (formatExc e) } }).1
        (RunRes.exn e) := by
    simp [run, hp]
  have hs1fin : s1.row.training_finished.getD false = false := hpres.2 rfl
  have hfin : ((runExts env Phase.on_error
      { s1 with row := { s1.row with got_exception := some (formatExc e) } }).1).row.training_finished.getD false = false := by
    rw [runExts_row_finished]
    exact hs1fin
  rw [hrun, finallyStep_skip env _ _ hfin]
  refine ⟨rfl, ?_, ?_, ?_⟩
  · rw [runExts_row_got]
  · rw [runExts_trace]
    exact List.mem_append_right _ (by simp)
  · intro hm
    rw [runExts_trace] at hm
    rcases List.mem_append.mp hm with hm | hm
    · have := hpres.1 hm
      simp [initState] at this
    · simp at hm

/-- C1 witness: an algorithm failure on the only batch of the run takes
the error path with all four guarantees. -/
theorem C1_error_path_witness :
    (tryBody failEnv (initState [[0]])).2 = TryRes.exn (Exc.userError "boom")
    ∧ ((run failEnv (initState [[0]])).2 = RunRes.exn (Exc.userError "boom")
       ∧ (run failEnv (initState [[0]])).1.row.got_exception
          = some (formatExc (Exc.userError "boom"))
       ∧ Ev.phase Phase.on_error ∈ (run failEnv (initState [[0]])).1.trace
       ∧ Ev.phase Phase.after_training ∉ (run failEnv (initState [[0]])).1.trace) :=
  ⟨by decide, C1_error_path failEnv [[0]] (Exc.userError "boom") (by decide)⟩

/-- C7: a run that terminates via the internal finish signal (whatever
granularity triggered it, including a batch-level finish caused by
`batch_interrupt_received`) marks `training_finished` in the current row
before the final cleanup, and the `after_training` phase therefore runs in
the `finally` step; moreover `after_training` runs exactly when
`training_finished` was set, so it is skipped only when the flag was never
set. -/
theorem C7_finish_runs_after_training (env : Env) (data : List (List ℕ)) :
    ((tryBody env (initState data)).2 = TryRes.fin →
      (run env (initState data)).1.row.training_finished = some true
      ∧ Ev.phase Phase.after_training ∈ (run env (initState data)).1.trace)
    ∧ (Ev.phase Phase.after_training ∈ (run env (initState data)).1.trace ↔
        (run env (initState data)).1.row.training_finished = some true) := by
  have hpres := lpres_tryBody env (initState data)
  rcases hp : tryBody env (initState data) with ⟨s1, r⟩
  rw [hp] at hpres
  dsimp at hpres
  have hs1fin : s1.row.training_finished.getD false = false := hpres.2 rfl
  have hs1at : Ev.phase Phase.after_training ∉ s1.trace := by
    intro hm
    have := hpres.1 hm
    simp [initState] at this
  rcases r with _ | _ | e
  · -- normal exhaustion of the data stream: the flag was never set
    have hrun : run env (initState data) = finallyStep env s1 RunRes.ok := by
      simp [run, hp]
    rw [hrun, finallyStep_skip env _ _ hs1fin]
    constructor
    · intro hfin
      exact absurd hfin (by simp)
    · constructor
      · intro hm
        exact absurd hm hs1at
      · intro hm
        rw [hm] at hs1fin
        simp at hs1fin
  · -- internal finish: the flag is set, after_training runs
    have hrun : run env (initState data) =
        finallyStep env
          { s1 with row := { s1.row with training_finished := some true } }
          RunRes.ok := by
      simp [run, hp]
    rcases hx : runExts env Phase.after_training
        { s1 with row := { s1.row with training_finished := some true } } with ⟨sA, oA⟩
    have hAfin : sA.row.training_finished = some true := by
      have := congrArg (fun x => x.1.row.training_finished) hx
      simpa using this.symm
    have hAtr : sA.trace = s1.trace ++ [Ev.phase Phase.after_training] := by
      have := congrArg (fun x => x.1.trace) hx
      simpa using this.symm
    have hres : (run env (initState data)).1 = sA := by
      rw [hrun]
      rcases oA with _ | eA <;> simp [finallyStep, hx]
    rw [hres]
    have hmem : Ev.phase Phase.after_training ∈ sA.trace := by
      rw [hAtr]
      exact List.mem_append_right _ (by simp)
    exact ⟨fun _ => ⟨hAfin, hmem⟩, iff_of_true hmem hAfin⟩
  · -- ordinary error: the flag was never set, after_training is skipped
    have hrun : run env (initState data) =
        finallyStep env
          (runExts env Phase.on_error
            { s1 with row := { s1.row with got_exception := some (formatExc e) } }).1
          (RunRes.exn e) := by
      simp [run, hp]
    have hfin : ((runExts env Phase.on_error
        { s1 with row := { s1.row with got_exception := some (formatExc e) } }).1).row.training_finished.getD false = false := by
      rw [runExts_row_finished]
      exact hs1fin
    rw [hrun, finallyStep_skip env _ _ hfin]
    constructor
    · intro hfin2
      exact absurd hfin2 (by simp)
    · constructor
      · intro hm
        rw [runExts_trace] at hm
        rcases List.mem_append.mp hm with hm | hm
        · exact absurd hm hs1at
        · simp at hm
      · intro hm
        rw [hm] at hfin
        simp at hfin

/-- C7 witness: a finish requested by an extension in `after_batch` sets
`training_finished` and runs `after_training`. -/
theorem C7_finish_runs_after_training_witness :
    (tryBody finishEnv (initState [[7]])).2 = TryRes.fin
    ∧ ((run finishEnv (initState [[7]])).1.row.training_finished = some true
       ∧ Ev.phase Phase.after_training ∈ (run finishEnv (initState [[7]])).1.trace) :=
  ⟨by decide, (C7_finish_runs_after_training finishEnv [[7]]).1 (by decide)⟩

theorem epochFields_runIteration (env : Env) (s : LState) :
    (runIteration env s).1.status.epoch_started = s.status.epoch_started
    ∧ (runIteration env s).1.status.epochs_done = s.status.epochs_done
    ∧ (runIteration env s).1.status.epoch_ends = s.status.epoch_ends := by
  unfold runIteration
  dsimp only
  split
  · split <;> exact ⟨rfl, rfl, rfl⟩
  next b rest hei =>
    split
    next s2 e2 heq =>
      have h := congrArg (fun x => x.1.status) heq
      simp at h
      rw [← h]
      exact ⟨rfl, rfl, rfl⟩
    next s2 heq =>
      have h := congrArg (fun x => x.1.status) heq
      simp at h
      split
      next e heqp =>
        rw [← h]
        exact ⟨rfl, rfl, rfl⟩
      next heqp =>
        split
        next s5 e heq2 =>
          have h2 := congrArg (fun x => x.1.status) heq2
          simp at h2
          rw [← h2, ← h]
          exact ⟨rfl, rfl, rfl⟩
        next s5 heq2 =>
          have h2 := congrArg (fun x => x.1.status) heq2
          simp at h2
          have hall : s5.status.epoch_started = s.status.epoch_started
              ∧ s5.status.epochs_done = s.status.epochs_done
              ∧ s5.status.epoch_ends = s.status.epoch_ends := by
            rw [← h2, ← h]
            exact ⟨rfl, rfl, rfl⟩
          split <;> exact hall

theorem epochFields_runIterLoopAux (env : Env) (n : ℕ) (s : LState) :
    (runIterLoopAux env n s).1.status.epoch_started = s.status.epoch_started
    ∧ (runIterLoopAux env n s).1.status.epochs_done = s.status.epochs_done
    ∧ (runIterLoopAux env n s).1.status.epoch_ends = s.status.epoch_ends := by
  induction n generalizing s with
  | zero => exact ⟨rfl, rfl, rfl⟩
  | succ n ih =>
    unfold runIterLoopAux
    split
    next s1 heq =>
      have h1 := epochFields_runIteration env s
      rw [heq] at h1
      obtain ⟨ha, hb, hc⟩ := ih s1
      exact ⟨ha.trans h1.1, hb.trans h1.2.1, hc.trans h1.2.2⟩
    all_goals
      next s1 heq =>
        have h1 := epochFields_runIteration env s
        rw [heq] at h1
        exact h1

theorem epochFields_runIterLoop (env : Env) (s : LState) :
    (runIterLoop env s).1.status.epoch_started = s.status.epoch_started
    ∧ (runIterLoop env s).1.status.epochs_done = s.status.epochs_done
    ∧ (runIterLoop env s).1.status.epoch_ends = s.status.epoch_ends :=
  epochFields_runIterLoopAux env _ s

theorem midEpoch_epochBody (env : Env) (s s1 : LState)
    (heq : epochBody env s = (s1, EpochRes.fin))
    (hst : s1.status.epoch_started = true) :
    s1.status.epochs_done = s.status.epochs_done
    ∧ s1.status.epoch_ends = s.status.epoch_ends := by
  unfold epochBody at heq
  split at heq
  next sl heql =>
    -- runIterLoop returned stop: any finish here has epoch_started = false
    dsimp only at heq
    split at heq
    next s3 e heq2 =>
      cases heq
    next s3 heq2 =>
      have h3 := congrArg (fun x => x.1.status.epoch_started) heq2
      simp at h3
      split at heq
      · have hs := congrArg Prod.fst heq
        dsimp at hs
        subst hs
        rw [h3] at hst
        cases hst
      · cases heq
  next sl heql =>
    -- runIterLoop raised the finish signal mid-epoch
    have h1 := epochFields_runIterLoop env s
    rw [heql] at h1
    cases heq
    exact ⟨h1.2.1, h1.2.2⟩
  next sl e heql =>
    cases heq

/-- C10: when the internal finish signal unwinds from the
batch-granularity finish check — the run stops mid-epoch, recognizable
because `epoch_started` is still true — the batch loop has left
`epoch_started`, `epochs_done` and the epoch-boundary history `_epoch_ends`
exactly as they were when the epoch began (no increment, no appended
entry), and `run()` then only adds `training_finished` to the current row
while leaving the persistent status untouched, so a resumed run observes
that it stopped mid-epoch. -/
theorem C10_midepoch_finish_state :
    (∀ (env : Env) (s : LState),
      (runIterLoop env s).1.status.epoch_started = s.status.epoch_started
      ∧ (runIterLoop env s).1.status.epochs_done = s.status.epochs_done
      ∧ (runIterLoop env s).1.status.epoch_ends = s.status.epoch_ends)
    ∧ (∀ (env : Env) (s s1 : LState),
        runEpoch env s = (s1, EpochRes.fin) →
        s1.status.epoch_started = true →
        s1.status.epochs_done = s.status.epochs_done
        ∧ s1.status.epoch_ends = s.status.epoch_ends)
    ∧ (∀ (env : Env) (s s1 : LState),
        tryBody env s = (s1, TryRes.fin) →
        (run env s).1.status = s1.status
        ∧ (run env s).1.row.training_finished = some true) := by
  refine ⟨epochFields_runIterLoop, ?_, ?_⟩
  · intro env s s1 heq hst
    unfold runEpoch at heq
    split at heq
    · exact midEpoch_epochBody env s s1 heq hst
    next hns =>
      dsimp only at heq
      split at heq
      · cases heq
      next ep rest heqs =>
        split at heq
        next s3 e heq2 =>
          cases heq
        next s3 heq2 =>
          have h3 := congrArg (fun x => x.1.status) heq2
          simp at h3
          have hmid := midEpoch_epochBody env s3 s1 heq hst
          rw [← h3] at hmid
          exact hmid
  · intro env s s1 heq
    have hrun : run env s =
        finallyStep env
          { s1 with row := { s1.row with training_finished := some true } }
          RunRes.ok := by
      simp [run, heq]
    rcases hx : runExts env Phase.after_training
        { s1 with row := { s1.row with training_finished := some true } } with ⟨sA, oA⟩
    have hAst : sA.status = s1.status := by
      have := congrArg (fun x => x.1.status) hx
      simpa using this.symm
    have hAfin : sA.row.training_finished = some true := by
      have := congrArg (fun x => x.1.row.training_finished) hx
      simpa using this.symm
    have hres : (run env s).1 = sA := by
      rw [hrun]
      rcases oA with _ | eA <;> simp [finallyStep, hx]
    rw [hres]
    exact ⟨hAst, hAfin⟩

/-- C10 witness: an extension-requested finish after the first batch of a
three-batch epoch stops the run mid-epoch with the recorded frame
effects. -/
theorem C10_midepoch_finish_state_witness :
    (runEpoch finishEnv (initState [[1, 2, 3]]) =
        ((runEpoch finishEnv (initState [[1, 2, 3]])).1, EpochRes.fin)
     ∧ (runEpoch finishEnv (initState [[1, 2, 3]])).1.status.epoch_started = true
     ∧ tryBody finishEnv (initState [[1, 2, 3]]) =
        ((tryBody finishEnv (initState [[1, 2, 3]])).1, TryRes.fin))
    ∧ ((runEpoch finishEnv (initState [[1, 2, 3]])).1.status.epochs_done
        = (initState [[1, 2, 3]]).status.epochs_done
       ∧ (runEpoch finishEnv (initState [[1, 2, 3]])).1.status.epoch_ends
        = (initState [[1, 2, 3]]).status.epoch_ends)
    ∧ ((run finishEnv (initState [[1, 2, 3]])).1.status
        = (tryBody finishEnv (initState [[1, 2, 3]])).1.status
       ∧ (run finishEnv (initState [[1, 2, 3]])).1.row.training_finished = some true) :=
  ⟨⟨by decide, by decide, by decide⟩,
   C10_midepoch_finish_state.2.1 finishEnv (initState [[1, 2, 3]]) _ (by decide) (by decide),
   C10_midepoch_finish_state.2.2 finishEnv (initState [[1, 2, 3]]) _ (by decide)⟩

theorem iterMono_runIteration (env : Env) (s : LState) :
    s.status.iterations_done ≤ (runIteration env s).1.status.iterations_done := by
  unfold runIteration
  dsimp only
  split
  · split <;> exact le_refl _
  next b rest hei =>
    split
    next s2 e2 heq =>
      have h := congrArg (fun x => x.1.status.iterations_done) heq
      simp at h
      try dsimp only
      omega
    next s2 heq =>
      have h := congrArg (fun x => x.1.status.iterations_done) heq
      simp at h
      split
      next e heqp =>
        try dsimp only
        omega
      next heqp =>
        split
        next s5 e heq2 =>
          have h2 := congrArg (fun x => x.1.status.iterations_done) heq2
          simp at h2
          try dsimp only
          omega
        next s5 heq2 =>
          have h2 := congrArg (fun x => x.1.status.iterations_done) heq2
          simp at h2
          have h5 : s.status.iterations_done ≤ s5.status.iterations_done := by omega
          split <;> exact h5

theorem iterMono_runIterLoopAux (env : Env) (n : ℕ) (s : LState) :
    s.status.iterations_done ≤ (runIterLoopAux env n s).1.status.iterations_done := by
  induction n generalizing s with
  | zero => exact le_refl _
  | succ n ih =>
    unfold runIterLoopAux
    split
    next s1 heq =>
      have h1 := iterMono_runIteration env s
      rw [heq] at h1
      exact le_trans h1 (ih s1)
    all_goals
      next s1 heq =>
        have h1 := iterMono_runIteration env s
        rw [heq] at h1
        exact h1

theorem iterMono_epochBody (env : Env) (s : LState) :
    s.status.iterations_done ≤ (epochBody env s).1.status.iterations_done := by
  unfold epochBody
  have hl := iterMono_runIterLoopAux env (s.epochIter.length + 1) s
  split
  next s1 heq =>
    have h1 : s.status.iterations_done ≤ s1.status.iterations_done := by
      rw [show runIterLoop env s = runIterLoopAux env (s.epochIter.length + 1) s from rfl]
        at heq
      rw [heq] at hl
      exact hl
    dsimp only
    split
    next s3 e heq2 =>
      have h := congrArg (fun x => x.1.status.iterations_done) heq2
      simp at h
      try dsimp only
      omega
    next s3 heq2 =>
      have h := congrArg (fun x => x.1.status.iterations_done) heq2
      simp at h
      have h3 : s.status.iterations_done ≤ s3.status.iterations_done := by omega
      split <;> exact h3
  next s1 heq =>
    rw [show runIterLoop env s = runIterLoopAux env (s.epochIter.length + 1) s from rfl]
      at heq
    rw [heq] at hl
    exact hl
  next s1 e heq =>
    rw [show runIterLoop env s = runIterLoopAux env (s.epochIter.length + 1) s from rfl]
      at heq
    rw [heq] at hl
    exact hl

theorem iterMono_runEpoch (env : Env) (s : LState) :
    s.status.iterations_done ≤ (runEpoch env s).1.status.iterations_done := by
  unfold runEpoch
  split
  · exact iterMono_epochBody env s
  · dsimp only
    split
    · exact le_refl _
    next ep rest heq =>
      split
      next s3 e heq2 =>
        have h := congrArg (fun x => x.1.status.iterations_done) heq2
        simp at h
        try dsimp only
        omega
      next s3 heq2 =>
        have h := congrArg (fun x => x.1.status.iterations_done) heq2
        simp at h
        have h3 := iterMono_epochBody env s3
        omega

theorem iterMono_runLoopAux (env : Env) (n : ℕ) (s : LState) :
    s.status.iterations_done ≤ (runLoopAux env n s).1.status.iterations_done := by
  induction n generalizing s with
  | zero => exact le_refl _
  | succ n ih =>
    unfold runLoopAux
    split
    next s1 heq =>
      have h1 := iterMono_runEpoch env s
      rw [heq] at h1
      exact le_trans h1 (ih s1)
    all_goals
      next s1 heq =>
        have h1 := iterMono_runEpoch env s
        rw [heq] at h1
        exact h1

theorem clean_runIteration (env : Env)
    (hproc : ∀ b, env.procBatch b = none)
    (hext : ∀ p k, env.ext p k = ExtAct.ok false)
    (s : LState) (b : ℕ) (rest : List ℕ)
    (hei : s.epochIter = b :: rest)
    (hbi : s.status.batch_interrupt_received.getD false = false) :
    (runIteration env s).2 = IterRes.cont
    ∧ (runIteration env s).1.epochIter = rest
    ∧ (runIteration env s).1.status.iterations_done = s.status.iterations_done + 1
    ∧ (runIteration env s).1.status.received_first_batch = true
    ∧ (runIteration env s).1.row = freshRow
    ∧ (runIteration env s).1.trace = s.trace ++ batchEvs b
    ∧ (runIteration env s).1.stream = s.stream
    ∧ (runIteration env s).1.status.batch_interrupt_received
        = s.status.batch_interrupt_received
    ∧ (runIteration env s).1.status.epoch_interrupt_received
        = s.status.epoch_interrupt_received := by
  simp [runIteration, hei, runExts, hext, hproc, checkFinishTraining, freshRow,
        batchEvs, hbi]

theorem clean_runIterLoopAux (env : Env)
    (hproc : ∀ b, env.procBatch b = none)
    (hext : ∀ p k, env.ext p k = ExtAct.ok false) :
    ∀ (bs : List ℕ) (n : ℕ) (s : LState),
    s.epochIter = bs →
    bs.length < n →
    s.status.batch_interrupt_received.getD false = false →
    (s.status.received_first_batch = true ∨ bs ≠ []) →
    s.row.training_finish_requested.getD false = false →
    (runIterLoopAux env n s).2 = LoopRes.stop
    ∧ (runIterLoopAux env n s).1.epochIter = []
    ∧ (runIterLoopAux env n s).1.status.iterations_done
        = s.status.iterations_done + bs.length
    ∧ (runIterLoopAux env n s).1.status.received_first_batch = true
    ∧ (runIterLoopAux env n s).1.trace = s.trace ++ bs.flatMap batchEvs
    ∧ (runIterLoopAux env n s).1.row.training_finish_requested.getD false = false
    ∧ (runIterLoopAux env n s).1.stream = s.stream
    ∧ (runIterLoopAux env n s).1.status.batch_interrupt_received
        = s.status.batch_interrupt_received
    ∧ (runIterLoopAux env n s).1.status.epoch_interrupt_received
        = s.status.epoch_interrupt_received := by
  intro bs
  induction bs with
  | nil =>
    intro n s hei hn hbi hrcv hrow
    rcases n with _ | m
    · omega
    · have hr : s.status.received_first_batch = true := by
        rcases hrcv with h | h
        · exact h
        · exact absurd rfl h
      simp [runIterLoopAux, runIteration, hei, hr, hrow, hbi]
  | cons b rest ih =>
    intro n s hei hn hbi hrcv hrow
    rcases n with _ | m
    · omega
    · obtain ⟨h1, h2, h3, h4, h5, h6, h7, h8, h9⟩ :=
        clean_runIteration env hproc hext s b rest hei hbi
      rcases hstep : runIteration env s with ⟨s1, r⟩
      rw [hstep] at h1 h2 h3 h4 h5 h6 h7 h8 h9
      dsimp at h1 h2 h3 h4 h5 h6 h7 h8 h9
      subst h1
      have hloop : runIterLoopAux env (m + 1) s = runIterLoopAux env m s1 := by
        simp [runIterLoopAux, hstep]
      rw [hloop]
      have hrest := ih m s1 h2 (by simpa using hn) (by rw [h8]; exact hbi)
        (Or.inl h4) (by rw [h5]; simp [freshRow])
      obtain ⟨g1, g2, g3, g4, g5, g6, g7, g8, g9⟩ := hrest
      refine ⟨g1, g2, ?_, g4, ?_, g6, ?_, ?_, ?_⟩
      · rw [g3, h3]
        simp [Nat.add_assoc, Nat.add_comm 1 rest.length]
      · rw [g5, h6]
        simp [batchEvs]
      · rw [g7, h7]
      · rw [g8, h8]
      · rw [g9, h9]

theorem clean_epochBody (env : Env)
    (hproc : ∀ b, env.procBatch b = none)
    (hext : ∀ p k, env.ext p k = ExtAct.ok false)
    (s3 : LState) (ep : List ℕ)
    (hei : s3.epochIter = ep)
    (hrcv : s3.status.received_first_batch = true ∨ ep ≠ [])
    (hbi : s3.status.batch_interrupt_received.getD false = false)
    (hepi : s3.status.epoch_interrupt_received.getD false = false)
    (hrow : s3.row.training_finish_requested.getD false = false) :
    (epochBody env s3).2 = EpochRes.cont
    ∧ (epochBody env s3).1.stream = s3.stream
    ∧ (epochBody env s3).1.status.epoch_started = false
    ∧ (epochBody env s3).1.status.epochs_done = s3.status.epochs_done + 1
    ∧ (epochBody env s3).1.status.iterations_done
        = s3.status.iterations_done + ep.length
    ∧ (epochBody env s3).1.trace
        = s3.trace ++ ep.flatMap batchEvs ++ [Ev.incEpoch, Ev.phase Phase.after_epoch]
    ∧ (epochBody env s3).1.row.training_finish_requested.getD false = false
    ∧ (epochBody env s3).1.status.batch_interrupt_received
        = s3.status.batch_interrupt_received
    ∧ (epochBody env s3).1.status.epoch_interrupt_received
        = s3.status.epoch_interrupt_received := by
  obtain ⟨g1, g2, g3, g4, g5, g6, g7, g8, g9⟩ :=
    clean_runIterLoopAux env hproc hext ep (s3.epochIter.length + 1) s3 hei
      (by rw [hei]; exact Nat.lt_succ_self _) hbi hrcv hrow
  unfold epochBody runIterLoop
  split
  next sl heql =>
    have gf := epochFields_runIterLoopAux env (s3.epochIter.length + 1) s3
    rw [heql] at g2 g3 g4 g5 g6 g7 g8 g9 gf
    dsimp at g2 g3 g4 g5 g6 g7 g8 g9 gf
    simp [runExts, hext, checkFinishTraining, g3, g5, g6, g7, g8, g9, gf.2.1,
          hbi, hepi]
  next sl heql =>
    rw [heql] at g1
    cases g1
  next sl e heql =>
    rw [heql] at g1
    cases g1

theorem clean_runEpoch (env : Env)
    (hproc : ∀ b, env.procBatch b = none)
    (hext : ∀ p k, env.ext p k = ExtAct.ok false)
    (s : LState) (ep : List ℕ) (rest : List (List ℕ))
    (hst : s.status.epoch_started = false)
    (hstream : s.stream = ep :: rest)
    (hne : ep ≠ [])
    (hbi : s.status.batch_interrupt_received.getD false = false)
    (hepi : s.status.epoch_interrupt_received.getD false = false)
    (hrow : s.row.training_finish_requested.getD false = false) :
    (runEpoch env s).2 = EpochRes.cont
    ∧ (runEpoch env s).1.stream = rest
    ∧ (runEpoch env s).1.status.epoch_started = false
    ∧ (runEpoch env s).1.status.epochs_done = s.status.epochs_done + 1
    ∧ (runEpoch env s).1.status.iterations_done
        = s.status.iterations_done + ep.length
    ∧ (runEpoch env s).1.trace = s.trace ++ epochEvs ep
    ∧ (runEpoch env s).1.row.training_finish_requested.getD false = false
    ∧ (runEpoch env s).1.status.batch_interrupt_received
        = s.status.batch_interrupt_received
    ∧ (runEpoch env s).1.status.epoch_interrupt_received
        = s.status.epoch_interrupt_received := by
  have hred : runEpoch env s = epochBody env { s with
      stream := rest, epochIter := ep,
      status := { s.status with received_first_batch := false, epoch_started := true },
      trace := s.trace ++ [Ev.phase Phase.before_epoch],
      extCalls := s.extCalls + 1 } := by
    simp [runEpoch, hst, hstream, runExts, hext]
  obtain ⟨k1, k2, k3, k4, k5, k6, k7, k8, k9⟩ :=
    clean_epochBody env hproc hext { s with
      stream := rest, epochIter := ep,
      status := { s.status with received_first_batch := false, epoch_started := true },
      trace := s.trace ++ [Ev.phase Phase.before_epoch],
      extCalls := s.extCalls + 1 } ep rfl (Or.inr hne) hbi hepi hrow
  rw [hred]
  refine ⟨k1, k2, k3, k4, k5, ?_, k7, k8, k9⟩
  rw [k6]
  simp [epochEvs]

theorem clean_runLoopAux (env : Env)
    (hproc : ∀ b, env.procBatch b = none)
    (hext : ∀ p k, env.ext p k = ExtAct.ok false) :
    ∀ (data : List (List ℕ)) (n : ℕ) (s : LState),
    s.stream = data →
    (∀ ep ∈ data, ep ≠ []) →
    s.status.epoch_started = false →
    s.status.batch_interrupt_received.getD false = false →
    s.status.epoch_interrupt_received.getD false = false →
    s.row.training_finish_requested.getD false = false →
    data.length < n →
    (runLoopAux env n s).2 = LoopRes.stop
    ∧ (runLoopAux env n s).1.status.iterations_done
        = s.status.iterations_done + totalBatches data
    ∧ (runLoopAux env n s).1.status.epochs_done
        = s.status.epochs_done + data.length
    ∧ (runLoopAux env n s).1.trace = s.trace ++ data.flatMap epochEvs := by
  intro data
  induction data with
  | nil =>
    intro n s hstream hall hst hbi hepi hrow hn
    rcases n with _ | m
    · omega
    · simp [runLoopAux, runEpoch, hst, hstream, totalBatches]
  | cons ep rest ih =>
    intro n s hstream hall hst hbi hepi hrow hn
    rcases n with _ | m
    · omega
    · obtain ⟨k1, k2, k3, k4, k5, k6, k7, k8, k9⟩ :=
        clean_runEpoch env hproc hext s ep rest hst hstream
          (hall ep (List.mem_cons_self ep rest)) hbi hepi hrow
      rcases hstep : runEpoch env s with ⟨s1, r⟩
      rw [hstep] at k1 k2 k3 k4 k5 k6 k7 k8 k9
      dsimp at k1 k2 k3 k4 k5 k6 k7 k8 k9
      subst k1
      have hloop : runLoopAux env (m + 1) s = runLoopAux env m s1 := by
        simp [runLoopAux, hstep]
      rw [hloop]
      have hrest := ih m s1 k2 (fun e he => hall e (List.mem_cons_of_mem ep he)) k3
        (by rw [k8]; exact hbi) (by rw [k9]; exact hepi) k7 (by simpa using hn)
      obtain ⟨g1, g2, g3, g4⟩ := hrest
      refine ⟨g1, ?_, ?_, ?_⟩
      · rw [g2, k5]
        simp only [totalBatches, List.map_cons, List.sum_cons]
        omega
      · rw [g3, k4]
        simp only [List.length_cons]
        omega
      · rw [g4, k6]
        simp


/-- C4: `iterations_done` is monotonically non-decreasing across the
epoch loop; and in an uninterrupted, failure-free run over a stream of E
nonempty epochs totalling N batches, the final counters are exactly
`iterations_done = N` and `epochs_done = E`, `run()` returns normally, and
the event trace is exactly the canonical trace: per epoch `before_epoch`,
then per batch `before_batch`, `process_batch`, the `iterations_done`
increment, `after_batch`, and then the `epochs_done` increment followed by
`after_epoch` — each phase exactly once per batch/epoch, with the
increments in their documented positions. -/
theorem C4_counters_and_phases :
    (∀ (env : Env) (s : LState),
        s.status.iterations_done ≤ (runLoop env s).1.status.iterations_done)
    ∧ (∀ (env : Env) (data : List (List ℕ)),
        env.initFail = none →
        (∀ b, env.procBatch b = none) →
        (∀ p k, env.ext p k = ExtAct.ok false) →
        (∀ ep ∈ data, ep ≠ []) →
        (run env (initState data)).2 = RunRes.ok
        ∧ (run env (initState data)).1.status.iterations_done = totalBatches data
        ∧ (run env (initState data)).1.status.epochs_done = data.length
        ∧ (run env (initState data)).1.trace = canonTrace data) := by
  constructor
  · intro env s
    exact iterMono_runLoopAux env _ s
  · intro env data hinit hproc hext hall
    have hstart : startStep env (initState data) = (startedState data, none) := by
      simp [startStep, initState, initStatus, runExts, hext, hinit, freshRow,
            startedState]
    have hres : resumeStep env (startedState data) = (startedState data, none) := by
      simp [resumeStep, startedState, initStatus]
    obtain ⟨g1, g2, g3, g4⟩ :=
      clean_runLoopAux env hproc hext data (data.length + 2) (startedState data)
        rfl hall rfl rfl rfl rfl (by omega)
    have hloopeq : runLoop env (startedState data)
        = runLoopAux env (data.length + 2) (startedState data) := rfl
    have htry : tryBody env (initState data) =
        ((runLoopAux env (data.length + 2) (startedState data)).1, TryRes.ok) := by
      unfold tryBody
      rw [hstart]
      dsimp only
      rw [hres]
      dsimp only
      rw [hloopeq]
      split
      next s3 heql =>
        rw [heql]
      next s3 heql =>
        rw [heql] at g1
        simp at g1
      next s3 e heql =>
        rw [heql] at g1
        simp at g1
    have hfin : ((runLoopAux env (data.length + 2)
        (startedState data)).1).row.training_finished.getD false = false :=
      (lpres_runLoopAux env (data.length + 2) (startedState data)).2 rfl
    have hrun : run env (initState data) =
        ((runLoopAux env (data.length + 2) (startedState data)).1, RunRes.ok) := by
      simp only [run, htry]
      rw [finallyStep_skip _ _ _ hfin]
    rw [hrun]
    refine ⟨rfl, ?_, ?_, ?_⟩
    · rw [g2]
      simp [startedState, initStatus]
    · rw [g3]
      simp [startedState, initStatus]
    · rw [g4]
      simp [startedState, canonTrace]

/-- C4 witness: a clean two-epoch run with three batches has exact final
counters and the canonical trace. -/
theorem C4_counters_and_phases_witness :
    (cleanEnv.initFail = none
     ∧ (∀ ep ∈ [[1, 2], [3]], ep ≠ []))
    ∧ ((run cleanEnv (initState [[1, 2], [3]])).2 = RunRes.ok
       ∧ (run cleanEnv (initState [[1, 2], [3]])).1.status.iterations_done
          = totalBatches [[1, 2], [3]]
       ∧ (run cleanEnv (initState [[1, 2], [3]])).1.status.epochs_done
          = [[1, 2], [3]].length
       ∧ (run cleanEnv (initState [[1, 2], [3]])).1.trace
          = canonTrace [[1, 2], [3]]) :=
  ⟨⟨rfl, by decide⟩,
   C4_counters_and_phases.2 cleanEnv [[1, 2], [3]] rfl (fun _ => rfl)
     (fun _ _ => rfl) (by decide)⟩

theorem getTotal_addTotal (tm : List (List String × ℚ)) (k : List String) (d : ℚ)
    (q : List String) :
    getTotal (addTotal tm k d) q = getTotal tm q + (if k = q then d else 0) := by
  induction tm with
  | nil => by_cases hq : k = q <;> simp [addTotal, getTotal, hq]
  | cons kv rest ih =>
    rcases kv with ⟨k', v'⟩
    by_cases hk : k' = k
    · subst hk
      by_cases hq : k' = q <;> simp [addTotal, getTotal, hq]
    · by_cases hq : k' = q
      · subst hq
        have : ¬ k = k' := fun h => hk h.symm
        simp [addTotal, getTotal, hk, this]
      · simp [addTotal, getTotal, hk, hq, ih]

theorem getTotal_nonneg (tm : List (List String × ℚ))
    (h : ∀ kv ∈ tm, 0 ≤ kv.2) (q : List String) : 0 ≤ getTotal tm q := by
  induction tm with
  | nil => simp [getTotal]
  | cons kv rest ih =>
    rcases kv with ⟨k', v'⟩
    by_cases hq : k' = q
    · simpa [getTotal, hq] using h (k', v') (List.mem_cons_self _ _)
    · simp only [getTotal, hq, if_false]
      exact ih fun kv hm => h kv (List.mem_cons_of_mem _ hm)

theorem getTotal_eq_zero_of_not_key (tm : List (List String × ℚ)) (q : List String)
    (h : ∀ kv ∈ tm, kv.1 ≠ q) : getTotal tm q = 0 := by
  induction tm with
  | nil => rfl
  | cons kv rest ih =>
    rcases kv with ⟨k', v'⟩
    have hne : k' ≠ q := h (k', v') (List.mem_cons_self _ _)
    simp only [getTotal, hne, if_false]
    exact ih fun kv hm => h kv (List.mem_cons_of_mem _ hm)

theorem addTotal_values_nonneg (tm : List (List String × ℚ)) (k : List String)
    (d : ℚ) (hd : 0 ≤ d) (h : ∀ kv ∈ tm, 0 ≤ kv.2) :
    ∀ kv ∈ addTotal tm k d, 0 ≤ kv.2 := by
  induction tm with
  | nil =>
    intro kv hm
    simp [addTotal] at hm
    rw [hm]
    exact hd
  | cons kv0 rest ih =>
    rcases kv0 with ⟨k', v'⟩
    intro kv hm
    by_cases hk : k' = k
    · subst hk
      simp [addTotal] at hm
      rcases hm with hm | hm
      · rw [hm]
        have := h (k', v') (List.mem_cons_self _ _)
        simp at this
        positivity
      · exact h kv (List.mem_cons_of_mem _ hm)
    · simp [addTotal, hk] at hm
      rcases hm with hm | hm
      · rw [hm]
        simpa using h (k', v') (List.mem_cons_self _ _)
      · exact ih (fun kv2 hm2 => h kv2 (List.mem_cons_of_mem _ hm2)) kv hm

theorem addTotal_keys (tm : List (List String × ℚ)) (k : List String) (d : ℚ) :
    (addTotal tm k d).map (fun kv => kv.1) = tm.map (fun kv => kv.1)
    ∨ ((addTotal tm k d).map (fun kv => kv.1) = tm.map (fun kv => kv.1) ++ [k]
       ∧ ∀ kv ∈ tm, kv.1 ≠ k) := by
  induction tm with
  | nil =>
    right
    constructor
    · simp [addTotal]
    · simp
  | cons kv0 rest ih =>
    rcases kv0 with ⟨k', v'⟩
    by_cases hk : k' = k
    · left
      subst hk
      simp [addTotal]
    · rcases ih with ih | ⟨ih, hall⟩
      · left
        simp [addTotal, hk, ih]
      · right
        constructor
        · simp [addTotal, hk, ih]
        · intro kv hm
          rcases List.mem_cons.mp hm with hm | hm
          · rw [hm]
            exact hk
          · exact hall kv hm

theorem addTotal_keys_nodup (tm : List (List String × ℚ)) (k : List String) (d : ℚ)
    (h : (tm.map (fun kv => kv.1)).Nodup) :
    ((addTotal tm k d).map (fun kv => kv.1)).Nodup := by
  rcases addTotal_keys tm k d with heq | ⟨heq, hall⟩
  · rw [heq]
    exact h
  · rw [heq]
    refine List.Nodup.append h (by simp) ?_
    intro x hx hxk
    simp at hxk
    subst hxk
    rcases List.mem_map.mp hx with ⟨kv, hkv, hkveq⟩
    exact hall kv hkv hkveq

theorem startsWith_append (p r : List String) : startsWith p (p ++ r) = true := by
  induction p with
  | nil => rfl
  | cons x p ih => simp [startsWith, ih]

theorem startsWith_trans_append (p r q : List String)
    (h : startsWith (p ++ r) q = true) : startsWith p q = true := by
  induction p generalizing q with
  | nil => rfl
  | cons x p ih =>
    rcases q with _ | ⟨y, q⟩
    · simp [startsWith] at h
    · simp [startsWith] at h ⊢
      exact ⟨h.1, ih q h.2⟩

theorem startsWith_iff (p q : List String) :
    startsWith p q = true ↔ ∃ r, q = p ++ r := by
  induction p generalizing q with
  | nil => simp [startsWith]
  | cons x p ih =>
    rcases q with _ | ⟨y, q⟩
    · simp [startsWith]
    · simp only [startsWith, Bool.and_eq_true, decide_eq_true_eq, ih]
      constructor
      · rintro ⟨hxy, r, hr⟩
        exact ⟨r, by simp [hxy, hr]⟩
      · rintro ⟨r, hr⟩
        simp only [List.cons_append, List.cons.injEq] at hr
        exact ⟨hr.1.symm, r, hr.2⟩

theorem startsWith_concat (pre q : List String) (m : String)
    (h : pre.length ≤ q.length) :
    startsWith pre (q ++ [m]) = startsWith pre q := by
  induction pre generalizing q with
  | nil => rfl
  | cons x pre ih =>
    rcases q with _ | ⟨y, q⟩
    · simp at h
    · simp only [List.cons_append, startsWith]
      simp only [List.length_cons, Nat.add_le_add_iff_right] at h
      rw [show q.append [m] = q ++ [m] from rfl, ih q h]

mutual
theorem runSpan_current : ∀ (s : Span) (t : Timer), (runSpan s t).current = t.current
  | Span.mk n a b cs, t => by
    have h := runSpans_current cs (t.enter n)
    show ((runSpans cs (t.enter n)).current).dropLast = t.current
    rw [h]
    show (t.current ++ [n]).dropLast = t.current
    simp

theorem runSpans_current : ∀ (l : Spans) (t : Timer), (runSpans l t).current = t.current
  | Spans.nil, _ => rfl
  | Spans.cons s rest, t => by
    show (runSpans rest (runSpan s t)).current = t.current
    rw [runSpans_current rest (runSpan s t), runSpan_current s t]
end

mutual
theorem runSpan_total : ∀ (s : Span) (t : Timer) (q : List String),
    getTotal (runSpan s t).total q = getTotal t.total q + Span.acc s t.current q
  | Span.mk n a b cs, t, q => by
    show getTotal (((runSpans cs (t.enter n)).exit (b - a)).total) q = _
    have hcur : (runSpans cs (t.enter n)).current = t.current ++ [n] := by
      rw [runSpans_current]
      rfl
    have hrec := runSpans_total cs (t.enter n) q
    simp only [Timer.exit, getTotal_addTotal, hcur, hrec,
      show (t.enter n).total = t.total from rfl,
      show (t.enter n).current = t.current ++ [n] from rfl, Span.acc]
    by_cases hq : q = t.current ++ [n]
    · subst hq
      simp only [if_pos rfl]
      ring
    · have hq2 : ¬ (t.current ++ [n] = q) := fun h => hq h.symm
      rw [if_neg hq2, if_neg hq]
      ring

theorem runSpans_total : ∀ (l : Spans) (t : Timer) (q : List String),
    getTotal (runSpans l t).total q = getTotal t.total q + Spans.acc l t.current q
  | Spans.nil, t, q => by
    simp [runSpans, Spans.acc]
  | Spans.cons s rest, t, q => by
    show getTotal (runSpans rest (runSpan s t)).total q = _
    rw [runSpans_total rest (runSpan s t) q, runSpan_total s t q,
        runSpan_current s t]
    simp [Spans.acc]
    ring
end

mutual
theorem runSpan_values_nonneg : ∀ (s : Span) (t : Timer), Span.wf s →
    (∀ kv ∈ t.total, 0 ≤ kv.2) → ∀ kv ∈ (runSpan s t).total, 0 ≤ kv.2
  | Span.mk n a b cs, t, hwf, h => by
    show ∀ kv ∈ ((runSpans cs (t.enter n)).exit (b - a)).total, 0 ≤ kv.2
    rcases hwf with ⟨hab, hcs⟩
    have hrec := runSpans_values_nonneg cs a b (t.enter n) hcs h
    intro kv hm
    exact addTotal_values_nonneg _ _ _ (by linarith) hrec kv hm

theorem runSpans_values_nonneg : ∀ (l : Spans) (lo hi : ℚ) (t : Timer),
    Spans.wfBetween lo hi l →
    (∀ kv ∈ t.total, 0 ≤ kv.2) → ∀ kv ∈ (runSpans l t).total, 0 ≤ kv.2
  | Spans.nil, _, _, _, _, h => h
  | Spans.cons (Span.mk n a b cs) rest, lo, hi, t, hwf, h => by
    show ∀ kv ∈ (runSpans rest (runSpan (Span.mk n a b cs) t)).total, 0 ≤ kv.2
    rcases hwf with ⟨hlo, hwfs, hrest⟩
    exact runSpans_values_nonneg rest b hi _ hrest
      (runSpan_values_nonneg (Span.mk n a b cs) t hwfs h)
end

mutual
theorem runSpan_keys_nodup : ∀ (s : Span) (t : Timer),
    (t.total.map (fun kv => kv.1)).Nodup →
    (((runSpan s t).total).map (fun kv => kv.1)).Nodup
  | Span.mk n a b cs, t, h => by
    show ((((runSpans cs (t.enter n)).exit (b - a)).total).map _).Nodup
    exact addTotal_keys_nodup _ _ _ (runSpans_keys_nodup cs (t.enter n) h)

theorem runSpans_keys_nodup : ∀ (l : Spans) (t : Timer),
    (t.total.map (fun kv => kv.1)).Nodup →
    (((runSpans l t).total).map (fun kv => kv.1)).Nodup
  | Spans.nil, _, h => h
  | Spans.cons s rest, t, h => by
    show (((runSpans rest (runSpan s t)).total).map _).Nodup
    exact runSpans_keys_nodup rest (runSpan s t) (runSpan_keys_nodup s t h)
end

mutual
theorem acc_eq_zero_of_short : ∀ (s : Span) (p q : List String),
    q.length ≤ p.length → Span.acc s p q = 0
  | Span.mk n a b cs, p, q, h => by
    have hne : q ≠ p ++ [n] := by
      intro hq
      rw [hq] at h
      simp at h
    have hrec := accs_eq_zero_of_short cs (p ++ [n]) q (by simp; omega)
    simp [Span.acc, hne, hrec]

theorem accs_eq_zero_of_short : ∀ (l : Spans) (p q : List String),
    q.length ≤ p.length → Spans.acc l p q = 0
  | Spans.nil, _, _, _ => rfl
  | Spans.cons s rest, p, q, h => by
    simp [Spans.acc, acc_eq_zero_of_short s p q h, accs_eq_zero_of_short rest p q h]
end

mutual
theorem acc_eq_zero_of_not_startsWith : ∀ (s : Span) (p q : List String),
    startsWith p q = false → Span.acc s p q = 0
  | Span.mk n a b cs, p, q, h => by
    have hne : q ≠ p ++ [n] := by
      intro hq
      rw [hq, startsWith_append] at h
      cases h
    have hsw : startsWith (p ++ [n]) q = false := by
      rcases hb : startsWith (p ++ [n]) q with _ | _
      · rfl
      · rw [startsWith_trans_append p [n] q hb] at h
        cases h
    simp [Span.acc, hne, accs_eq_zero_of_not_startsWith cs (p ++ [n]) q hsw]

theorem accs_eq_zero_of_not_startsWith : ∀ (l : Spans) (p q : List String),
    startsWith p q = false → Spans.acc l p q = 0
  | Spans.nil, _, _, _ => rfl
  | Spans.cons s rest, p, q, h => by
    simp [Spans.acc, acc_eq_zero_of_not_startsWith s p q h,
          accs_eq_zero_of_not_startsWith rest p q h]
end

theorem children_sum_le_of_wfBetween :
    ∀ (l : Spans) (lo hi : ℚ), Spans.wfBetween lo hi l →
    ∀ (q : List String) (ns : Finset String),
    (∑ m ∈ ns, Spans.acc l q (q ++ [m])) ≤ hi - lo
  | Spans.nil, lo, hi, hwf, q, ns => by
    simp only [Spans.acc, Finset.sum_const_zero]
    have : lo ≤ hi := hwf
    linarith
  | Spans.cons (Span.mk nc ac bc cc) rest, lo, hi, hwf, q, ns => by
    rcases hwf with ⟨hlo, hwfc, hrest⟩
    rcases hwfc with ⟨hac, hcc⟩
    have hchild : ∀ m, Span.acc (Span.mk nc ac bc cc) q (q ++ [m])
        = if m = nc then bc - ac else 0 := by
      intro m
      have hdeep : Spans.acc cc (q ++ [nc]) (q ++ [m]) = 0 :=
        accs_eq_zero_of_short cc (q ++ [nc]) (q ++ [m]) (by simp)
      by_cases hm : m = nc
      · subst hm
        simp [Span.acc, hdeep]
      · have hne : q ++ [m] ≠ q ++ [nc] := by
          simp [hm]
        simp [Span.acc, hne, hdeep, hm]
    have hsum1 : (∑ m ∈ ns, Span.acc (Span.mk nc ac bc cc) q (q ++ [m]))
        = if nc ∈ ns then bc - ac else 0 := by
      rw [Finset.sum_congr rfl fun m _ => hchild m]
      exact Finset.sum_ite_eq' ns nc fun _ => bc - ac
    have hsum2 := children_sum_le_of_wfBetween rest bc hi hrest q ns
    calc (∑ m ∈ ns, Spans.acc (Spans.cons (Span.mk nc ac bc cc) rest) q (q ++ [m]))
        = (∑ m ∈ ns, Span.acc (Span.mk nc ac bc cc) q (q ++ [m]))
          + (∑ m ∈ ns, Spans.acc rest q (q ++ [m])) := by
          rw [← Finset.sum_add_distrib]
          rfl
      _ ≤ (bc - ac) + (hi - bc) := by
          rw [hsum1]
          have : (if nc ∈ ns then bc - ac else 0) ≤ bc - ac := by
            split
            · exact le_refl _
            · linarith
          linarith
      _ ≤ hi - lo := by linarith

mutual
theorem span_children_le : ∀ (s : Span), Span.wf s →
    ∀ (p q : List String), (∃ r, r ≠ [] ∧ q = p ++ r) →
    ∀ (ns : Finset String),
    (∑ m ∈ ns, Span.acc s p (q ++ [m])) ≤ Span.acc s p q
  | Span.mk n a b cs, hwf, p, q, hext, ns => by
    rcases hwf with ⟨hab, hcs⟩
    rcases hext with ⟨r, hrne, hqr⟩
    have hlen : p.length < q.length := by
      rw [hqr]
      simp only [List.length_append]
      have : 0 < r.length := List.length_pos.mpr hrne
      omega
    have hne : ∀ m : String, ¬ (q ++ [m] = p ++ [n]) := by
      intro m h
      have := congrArg List.length h
      simp only [List.length_append, List.length_cons, List.length_nil] at this
      omega
    have hlhs : (∑ m ∈ ns, Span.acc (Span.mk n a b cs) p (q ++ [m]))
        = ∑ m ∈ ns, Spans.acc cs (p ++ [n]) (q ++ [m]) := by
      refine Finset.sum_congr rfl fun m _ => ?_
      simp [Span.acc, hne m]
    rw [hlhs]
    by_cases hq : q = p ++ [n]
    · have hzero : Spans.acc cs (p ++ [n]) (p ++ [n]) = 0 :=
        accs_eq_zero_of_short cs (p ++ [n]) (p ++ [n]) (le_refl _)
      have hrhs : Span.acc (Span.mk n a b cs) p q = b - a := by
        simp [Span.acc, hq, hzero]
      rw [hrhs]
      have := children_sum_le_of_wfBetween cs a b hcs q ns
      calc (∑ m ∈ ns, Spans.acc cs (p ++ [n]) (q ++ [m]))
          = (∑ m ∈ ns, Spans.acc cs q (q ++ [m])) := by rw [hq]
        _ ≤ b - a := this
    · have hrhs : Span.acc (Span.mk n a b cs) p q = Spans.acc cs (p ++ [n]) q := by
        simp [Span.acc, hq]
      rw [hrhs]
      rcases hsw : startsWith (p ++ [n]) q with _ | _
      · have hzq : Spans.acc cs (p ++ [n]) q = 0 :=
          accs_eq_zero_of_not_startsWith cs (p ++ [n]) q hsw
        have hzm : ∀ m : String, Spans.acc cs (p ++ [n]) (q ++ [m]) = 0 := by
          intro m
          refine accs_eq_zero_of_not_startsWith cs (p ++ [n]) (q ++ [m]) ?_
          rw [startsWith_concat (p ++ [n]) q m (by simp; omega)]
          exact hsw
        rw [hzq]
        rw [Finset.sum_congr rfl fun m _ => hzm m]
        simp
      · obtain ⟨r2, hr2⟩ := (startsWith_iff (p ++ [n]) q).mp hsw
        have hr2ne : r2 ≠ [] := by
          intro hc
          rw [hc] at hr2
          simp at hr2
          exact hq hr2
        exact spans_children_le cs a b hcs (p ++ [n]) q ⟨r2, hr2ne, hr2⟩ ns

theorem spans_children_le : ∀ (l : Spans) (lo hi : ℚ), Spans.wfBetween lo hi l →
    ∀ (p q : List String), (∃ r, r ≠ [] ∧ q = p ++ r) →
    ∀ (ns : Finset String),
    (∑ m ∈ ns, Spans.acc l p (q ++ [m])) ≤ Spans.acc l p q
  | Spans.nil, lo, hi, _, p, q, _, ns => by
    simp [Spans.acc]
  | Spans.cons s rest, lo, hi, hwf, p, q, hext, ns => by
    rcases s with ⟨nc, ac, bc, cc⟩
    rcases hwf with ⟨hlo, hwfc, hrest⟩
    have h1 := span_children_le (Span.mk nc ac bc cc) hwfc p q hext ns
    have h2 := spans_children_le rest bc hi hrest p q hext ns
    calc (∑ m ∈ ns, Spans.acc (Spans.cons (Span.mk nc ac bc cc) rest) p (q ++ [m]))
        = (∑ m ∈ ns, Span.acc (Span.mk nc ac bc cc) p (q ++ [m]))
          + (∑ m ∈ ns, Spans.acc rest p (q ++ [m])) := by
          rw [← Finset.sum_add_distrib]
          rfl
      _ ≤ Span.acc (Span.mk nc ac bc cc) p q + Spans.acc rest p q := by
          exact add_le_add h1 h2
      _ = Spans.acc (Spans.cons (Span.mk nc ac bc cc) rest) p q := rfl
end

theorem sum_getTotal_le_grand : ∀ (tm : List (List String × ℚ)),
    (∀ kv ∈ tm, 0 ≤ kv.2) → ((tm.map fun kv => kv.1).Nodup) →
    ∀ (Q : Finset (List String)), (∀ p ∈ Q, p.length = 1) →
    (∑ p ∈ Q, getTotal tm p)
      ≤ ((tm.filter fun kv => kv.1.length = 1).map fun kv => kv.2).sum
  | [], _, _, Q, _ => by simp [getTotal]
  | (k, v) :: rest, hpos, hnd, Q, hQ => by
    simp only [List.map_cons, List.nodup_cons] at hnd
    have hk0 : getTotal rest k = 0 := by
      refine getTotal_eq_zero_of_not_key rest k fun kv2 hm hc => ?_
      exact hnd.1 (by rw [← hc]; exact List.mem_map.mpr ⟨kv2, hm, rfl⟩)
    have hsplit : (∑ p ∈ Q, getTotal ((k, v) :: rest) p)
        = (∑ p ∈ Q, (if k = p then v else 0)) + (∑ p ∈ Q, getTotal rest p) := by
      rw [← Finset.sum_add_distrib]
      refine Finset.sum_congr rfl fun p _ => ?_
      by_cases hp : k = p
      · subst hp
        simp [getTotal, hk0]
      · simp [getTotal, hp]
    have hite : (∑ p ∈ Q, (if k = p then v else 0)) = if k ∈ Q then v else 0 :=
      Finset.sum_ite_eq Q k fun _ => v
    have hrest := sum_getTotal_le_grand rest
      (fun kv2 hm => hpos kv2 (List.mem_cons_of_mem _ hm)) hnd.2 Q hQ
    have hv : 0 ≤ v := by simpa using hpos (k, v) (List.mem_cons_self _ _)
    rw [hsplit, hite]
    by_cases hkQ : k ∈ Q
    · have hk1 : k.length = 1 := hQ k hkQ
      rw [if_pos hkQ]
      have hfil : ((((k, v) :: rest).filter fun kv => kv.1.length = 1).map
          fun kv => kv.2).sum
          = v + ((rest.filter fun kv => kv.1.length = 1).map fun kv => kv.2).sum := by
        simp [List.filter_cons, hk1]
      rw [hfil]
      linarith
    · rw [if_neg hkQ]
      by_cases hk1 : k.length = 1
      · have hfil : ((((k, v) :: rest).filter fun kv => kv.1.length = 1).map
            fun kv => kv.2).sum
            = v + ((rest.filter fun kv => kv.1.length = 1).map fun kv => kv.2).sum := by
          simp [List.filter_cons, hk1]
        rw [hfil]
        linarith
      · have hfil : ((((k, v) :: rest).filter fun kv => kv.1.length = 1).map
            fun kv => kv.2).sum
            = ((rest.filter fun kv => kv.1.length = 1).map fun kv => kv.2).sum := by
          simp [List.filter_cons, hk1]
        rw [hfil]
        linarith

theorem timerTotal_runSpans (F : Spans) (q : List String) :
    timerTotal (runSpans F Timer.init) q = Spans.acc F [] q := by
  have h := runSpans_total F Timer.init q
  simpa [timerTotal, Timer.init, getTotal] using h

theorem timer_children_le (F : Spans) (lo hi : ℚ) (hwf : Spans.wfBetween lo hi F)
    (q : List String) (hq : q ≠ []) (ns : Finset String) :
    (∑ m ∈ ns, timerTotal (runSpans F Timer.init) (q ++ [m]))
      ≤ timerTotal (runSpans F Timer.init) q := by
  rw [Finset.sum_congr rfl fun m _ => timerTotal_runSpans F (q ++ [m]),
      timerTotal_runSpans]
  exact spans_children_le F lo hi hwf [] q ⟨q, hq, by simp⟩ ns

theorem level_sum_le_grand (F : Spans) (lo hi : ℚ)
    (hwf : Spans.wfBetween lo hi F) :
    ∀ (L : ℕ), 1 ≤ L → ∀ (Q : Finset (List String)), (∀ p ∈ Q, p.length = L) →
    (∑ p ∈ Q, timerTotal (runSpans F Timer.init) p)
      ≤ reportGrand (runSpans F Timer.init) := by
  intro L
  induction L with
  | zero =>
    intro h1
    exact absurd h1 (by omega)
  | succ L ih =>
    intro _ Q hQ
    by_cases hL : L = 0
    · subst hL
      have hpos := runSpans_values_nonneg F lo hi Timer.init hwf
        (by simp [Timer.init])
      have hnd := runSpans_keys_nodup F Timer.init (by simp [Timer.init])
      exact sum_getTotal_le_grand _ hpos hnd Q hQ
    · have hL1 : 1 ≤ L := Nat.one_le_iff_ne_zero.mpr hL
      have hmaps : ∀ q ∈ Q, q.dropLast ∈ Q.image List.dropLast := fun q hq2 =>
        Finset.mem_image_of_mem _ hq2
      have hfib := Finset.sum_fiberwise_of_maps_to hmaps
        (fun p => timerTotal (runSpans F Timer.init) p)
      rw [← hfib]
      have hPlen : ∀ p ∈ Q.image List.dropLast, p.length = L := by
        intro p hp
        rcases Finset.mem_image.mp hp with ⟨q2, hq2, rfl⟩
        have hq2l := hQ q2 hq2
        simp [List.length_dropLast, hq2l]
      have hinner : ∀ p ∈ Q.image List.dropLast,
          (∑ x ∈ Q.filter fun x => x.dropLast = p,
            timerTotal (runSpans F Timer.init) x)
          ≤ timerTotal (runSpans F Timer.init) p := by
        intro p hp
        have hq_eq : ∀ q ∈ Q.filter (fun x => x.dropLast = p),
            q = p ++ [lastName q] := by
          intro q hqf
          obtain ⟨hqQ, hqd⟩ := Finset.mem_filter.mp hqf
          have hqlen : q.length = L + 1 := hQ q hqQ
          have hqne : q ≠ [] := by
            intro hc
            rw [hc] at hqlen
            simp at hqlen
          have h1 : q.dropLast ++ [q.getLast hqne] = q :=
            List.dropLast_append_getLast hqne
          have h2 : lastName q = q.getLast hqne := by
            simp [lastName, List.getLast?_eq_getLast q hqne]
          rw [h2, ← hqd, h1]
        have hsum_img : (∑ m ∈ (Q.filter fun x => x.dropLast = p).image lastName,
              timerTotal (runSpans F Timer.init) (p ++ [m]))
            = ∑ q ∈ Q.filter fun x => x.dropLast = p,
              timerTotal (runSpans F Timer.init) (p ++ [lastName q]) := by
          refine Finset.sum_image fun q1 h1 q2 h2 heq => ?_
          calc q1 = p ++ [lastName q1] := hq_eq q1 h1
            _ = p ++ [lastName q2] := by rw [heq]
            _ = q2 := (hq_eq q2 h2).symm
        have hcongr : (∑ q ∈ Q.filter fun x => x.dropLast = p,
              timerTotal (runSpans F Timer.init) (p ++ [lastName q]))
            = ∑ q ∈ Q.filter fun x => x.dropLast = p,
              timerTotal (runSpans F Timer.init) q :=
          Finset.sum_congr rfl fun q hq3 => by rw [← hq_eq q hq3]
        have hp_ne : p ≠ [] := by
          intro hc
          have := hPlen p hp
          rw [hc] at this
          simp at this
          omega
        have hbound := timer_children_le F lo hi hwf p hp_ne
          ((Q.filter fun x => x.dropLast = p).image lastName)
        rw [hsum_img, hcongr] at hbound
        exact hbound
      calc (∑ p ∈ Q.image List.dropLast,
              ∑ x ∈ Q.filter fun x => x.dropLast = p,
                timerTotal (runSpans F Timer.init) x)
          ≤ ∑ p ∈ Q.image List.dropLast, timerTotal (runSpans F Timer.init) p :=
            Finset.sum_le_sum hinner
        _ ≤ reportGrand (runSpans F Timer.init) :=
            ih hL1 (Q.image List.dropLast) hPlen

/-- C9: for a timer filled by a well-nested timed execution (every
`TimeIt` block closes inside its parent and the clock is monotone, which
is how the main loop uses the timer), the report invariants hold: for
every reported path, the sum of the accumulations of its direct children
(any set of child names) does not exceed the parent accumulation, so the
implicit Other line (parent total minus the children total) is never
negative; and every set of distinct reported paths of one level sums to
at most the grand total, so the percentage column (each total divided by
the grand total) sums to at most 100 percent at each level. -/
theorem C9_report_invariants (F : Spans) (lo hi : ℚ)
    (hwf : Spans.wfBetween lo hi F)
    (q : List String) (hq : q ≠ [])
    (ns : Finset String)
    (L : ℕ) (hL : 1 ≤ L) (Q : Finset (List String)) (hQ : ∀ p ∈ Q, p.length = L) :
    (∑ m ∈ ns, timerTotal (runSpans F Timer.init) (q ++ [m]))
      ≤ timerTotal (runSpans F Timer.init) q
    ∧ 0 ≤ timerTotal (runSpans F Timer.init) q
        - ∑ m ∈ ns, timerTotal (runSpans F Timer.init) (q ++ [m])
    ∧ (∑ p ∈ Q, timerTotal (runSpans F Timer.init) p)
        ≤ reportGrand (runSpans F Timer.init)
    ∧ (0 < reportGrand (runSpans F Timer.init) →
        (∑ p ∈ Q, timerTotal (runSpans F Timer.init) p
          / reportGrand (runSpans F Timer.init)) ≤ 1) := by
  have h1 := timer_children_le F lo hi hwf q hq ns
  have h3 := level_sum_le_grand F lo hi hwf L hL Q hQ
  refine ⟨h1, by linarith, h3, fun hg => ?_⟩
  rw [← Finset.sum_div]
  exact (div_le_one hg).mpr h3

/-- C9 witness: the example execution (section a from clock 0 to 10 with
child b from 1 to 3) satisfies all four report invariants. -/
theorem C9_report_invariants_witness :
    (Spans.wfBetween 0 10 exSpans ∧ (["a"] : List String) ≠ []
     ∧ (∀ p ∈ ({["a"]} : Finset (List String)), p.length = 1))
    ∧ ((∑ m ∈ ({"b"} : Finset String),
          timerTotal (runSpans exSpans Timer.init) (["a"] ++ [m]))
        ≤ timerTotal (runSpans exSpans Timer.init) ["a"]
       ∧ 0 ≤ timerTotal (runSpans exSpans Timer.init) ["a"]
          - ∑ m ∈ ({"b"} : Finset String),
              timerTotal (runSpans exSpans Timer.init) (["a"] ++ [m])
       ∧ (∑ p ∈ ({["a"]} : Finset (List String)),
            timerTotal (runSpans exSpans Timer.init) p)
          ≤ reportGrand (runSpans exSpans Timer.init)
       ∧ (0 < reportGrand (runSpans exSpans Timer.init) →
          (∑ p ∈ ({["a"]} : Finset (List String)),
             timerTotal (runSpans exSpans Timer.init) p
               / reportGrand (runSpans exSpans Timer.init)) ≤ 1)) :=
  ⟨⟨by simp only [exSpans, Spans.wfBetween, Span.wf]; decide, by decide, by decide⟩,
   C9_report_invariants exSpans 0 10
     (by simp only [exSpans, Spans.wfBetween, Span.wf]; decide)
     ["a"] (by decide) {"b"} 1 (by decide) {["a"]} (by decide)⟩
